import Mathlib

/-!
Verification development for `veins/base/toolbox/SignalUtils.cc`.

Shallow embedding conventions:
* `simtime_t` and `double` are modelled by `ℚ` (exact arithmetic; the source
  performs only +, -, /, comparisons and min/max on them).
* The C++ `INFINITY` seed of `getMinSINR` is modelled by `⊤` in `WithTop ℚ`.
* `AirFrame*` object identity (pointer comparison) is modelled by an `objId`
  field: two distinct live objects have distinct `objId`.
* The `Signal` class and the analogue-model stack live outside the provided
  source file; they are modelled from the specification (see the doc comments
  of the corresponding definitions).
* The C++ `ASSERT` preconditions are expressed as hypotheses of the theorems.
-/

/-- Modelled from the spec: a `Signal` is a per-frequency-bin power vector over
an equality-comparable spectrum descriptor (here: the number of bins), with a
populated sub-range `[dataStart, dataEnd)` (samples outside it are implicitly
zero), a half-open reception interval `[receptionStart, receptionEnd)`, and an
ordered fixed list of attenuation stages (per-bin multiplicative factors) of
which the first `numAnalogueModelsApplied` have already been consumed. -/
structure Signal where
  spectrum : Nat
  values : Nat → ℚ
  dataStart : Nat
  dataEnd : Nat
  receptionStart : ℚ
  receptionEnd : ℚ
  analogueModels : List (Nat → ℚ)
  numAnalogueModelsApplied : Nat

/-- `Signal::at(i)`: direct access to the power sample of bin `i`. -/
def Signal.at (s : Signal) (i : Nat) : ℚ := s.values i

/-- `Signal(spectrum)`: a fresh all-zero signal with an empty populated range,
as used for the accumulator vectors of the sweep functions. -/
def Signal.ofSpectrum (spectrum : Nat) : Signal :=
  ⟨spectrum, fun _ => 0, 0, 0, 0, 0, [], 0⟩

/-- Modelled from the spec: the populated range of the result of an element-wise
operation is the union of the operands' populated ranges; an empty range is
represented canonically as `(0, 0)`. -/
def unionRange (a b : Nat × Nat) : Nat × Nat :=
  if a.2 ≤ a.1 then (if b.2 ≤ b.1 then (0, 0) else b)
  else if b.2 ≤ b.1 then a
  else (min a.1 b.1, max a.2 b.2)

/-- Modelled from the spec: `Signal::operator+=`, element-wise addition of the
power vectors; the populated range becomes the union of the operands' ranges.
The receiver's spectrum, reception interval and attenuation state are kept. -/
def Signal.add (a b : Signal) : Signal :=
  let r := unionRange (a.dataStart, a.dataEnd) (b.dataStart, b.dataEnd)
  { a with values := fun j => a.values j + b.values j, dataStart := r.1, dataEnd := r.2 }

/-- Modelled from the spec: `Signal::operator-=`, element-wise subtraction. -/
def Signal.sub (a b : Signal) : Signal :=
  let r := unionRange (a.dataStart, a.dataEnd) (b.dataStart, b.dataEnd)
  { a with values := fun j => a.values j - b.values j, dataStart := r.1, dataEnd := r.2 }

instance : Add Signal := ⟨Signal.add⟩

instance : Sub Signal := ⟨Signal.sub⟩

/-- The list of populated bin indices `[dataStart, dataEnd)`. -/
def Signal.binRange (s : Signal) : List Nat :=
  List.range' s.dataStart (s.dataEnd - s.dataStart)

/-- Modelled from the spec: `Signal::getMax()`, the maximum power sample over
the populated bin range (`0` for an empty range). -/
def Signal.getMax (s : Signal) : ℚ :=
  match s.binRange.map s.values with
  | [] => 0
  | x :: xs => xs.foldl max x

/-- Modelled from the spec: `Signal::getDataMin()`, the minimum power sample
over the populated bin range (`0` for an empty range). -/
def Signal.getDataMin (s : Signal) : ℚ :=
  match s.binRange.map s.values with
  | [] => 0
  | x :: xs => xs.foldl min x

/-- Modelled from the spec: `Signal::applyAnalogueModel(index)` multiplies the
power vector by the per-bin factor of stage `index`; a stage is consumed at
most once and only in order, tracked by `numAnalogueModelsApplied`. -/
def Signal.applyAnalogueModel (s : Signal) (index : Nat) : Signal :=
  if index = s.numAnalogueModelsApplied ∧ index < s.analogueModels.length then
    { s with values := fun j => s.values j * (s.analogueModels.getD index (fun _ => 1)) j,
             numAnalogueModelsApplied := index + 1 }
  else s

/-- Modelled from the spec: `Signal::applyAllAnalogueModels()` consumes every
remaining attenuation stage. -/
def Signal.applyAllAnalogueModels (s : Signal) : Signal :=
  (List.range' s.numAnalogueModelsApplied
    (s.analogueModels.length - s.numAnalogueModelsApplied)).foldl Signal.applyAnalogueModel s

/-- Modelled from the spec: `Signal::operator+(double)`, adding a scalar noise
floor to every power sample. -/
def Signal.addConstant (s : Signal) (x : ℚ) : Signal :=
  { s with values := fun j => s.values j + x }

/-- Modelled from the spec: element-wise division `Signal::operator/`. -/
def Signal.divSig (a b : Signal) : Signal :=
  let r := unionRange (a.dataStart, a.dataEnd) (b.dataStart, b.dataEnd)
  { a with values := fun j => a.values j / b.values j, dataStart := r.1, dataEnd := r.2 }

/-- An `AirFrame`: transport envelope owning one `Signal` plus its transport
identity `treeId` (C++ `getTreeId()`). `objId` models C++ object identity
(the pointer value): distinct live frame objects have distinct `objId`. -/
structure AirFrame where
  treeId : Nat
  objId : Nat
  signal : Signal

/-- Pointer comparison of a frame against a possibly-null `AirFrame*`. -/
def sameObject (f : AirFrame) (e : Option AirFrame) : Bool :=
  match e with
  | none => false
  | some e => f.objId = e.objId

/-- The `ChangeType` enumeration of `SignalUtils.cc`. -/
inductive ChangeType where
  | nothing
  | starting
  | ending
deriving DecidableEq

/-- The `SignalChange` record of `SignalUtils.cc`. -/
structure SignalChange where
  signal : Signal
  type : ChangeType
  time : ℚ

/-- `compareByTime` of `SignalUtils.cc`: the strict comparator handed to
`std::sort`; equal timestamps are deliberately left unordered. -/
def compareByTime (lhs rhs : SignalChange) : Prop := lhs.time < rhs.time

/-- The non-strict time order induced by `compareByTime`; a `std::sort` result
is exactly a `timeLE`-sorted permutation of its input. -/
def timeLE (a b : SignalChange) : Prop := a.time ≤ b.time

instance : DecidableRel timeLE := fun a b => inferInstanceAs (Decidable (a.time ≤ b.time))

instance : IsTotal SignalChange timeLE := ⟨fun a b => le_total a.time b.time⟩

instance : IsTrans SignalChange timeLE := ⟨fun _ _ _ h h' => le_trans h h'⟩

/-- The events the loop body of `calculateChanges` emits for one frame
(everything after the `exclude` test). -/
def changesOfFrame (start endT : ℚ) (airFrame : AirFrame) : List SignalChange :=
  let signal := airFrame.signal
  if start = endT ∧ signal.receptionStart = start then
    [⟨signal, ChangeType.starting, signal.receptionStart⟩]
  else if signal.receptionStart < endT ∧ signal.receptionEnd > start then
    ⟨signal, ChangeType.starting, signal.receptionStart⟩ ::
      (if signal.receptionEnd ≤ endT then [⟨signal, ChangeType.ending, signal.receptionEnd⟩] else [])
  else []

/-- `calculateChanges` of `SignalUtils.cc`: event extraction over a window,
skipping the frame pointer-equal to `exclude`. -/
def calculateChanges (start endT : ℚ) (airFrames : List AirFrame) (exclude : Option AirFrame) :
    List SignalChange :=
  airFrames.flatMap fun airFrame =>
    if sameObject airFrame exclude then [] else changesOfFrame start endT airFrame

/-- The `std::sort(changes.begin(), changes.end(), compareByTime)` step: a
deterministic stand-in producing a `timeLE`-sorted permutation. -/
def sortChanges (l : List SignalChange) : List SignalChange :=
  List.insertionSort timeLE l

/-- One event applied to the running interference accumulator (the body of the
chunk loops of `getGlobalMax` / `getGlobalMin`). -/
def applyChange (acc : Signal) (c : SignalChange) : Signal :=
  match c.type with
  | ChangeType.starting => acc + c.signal
  | ChangeType.ending => acc - c.signal
  | ChangeType.nothing => acc

/-- One event applied to the scalar accumulator of `getMinAtFreqIndex`. -/
def applyChangeAt (freqIndex : Nat) (acc : ℚ) (c : SignalChange) : ℚ :=
  match c.type with
  | ChangeType.starting => acc + c.signal.at freqIndex
  | ChangeType.ending => acc - c.signal.at freqIndex
  | ChangeType.nothing => acc

/-- The chunk loop shared by the three sweep functions: apply each event; at a
boundary (the following event has a strictly greater timestamp, or no event
follows) fold the evaluated accumulator into the running extremum. -/
def sweepLoop {σ : Type} (apply : σ → SignalChange → σ) (eval : σ → ℚ)
    (better : ℚ → ℚ → ℚ) : List SignalChange → σ → ℚ → ℚ
  | [], _, m => m
  | [c], acc, m => better m (eval (apply acc c))
  | c :: c' :: rest, acc, m =>
    let acc' := apply acc c
    if c.time = c'.time then sweepLoop apply eval better (c' :: rest) acc' m
    else sweepLoop apply eval better (c' :: rest) acc' (better m (eval acc'))

/-- The post-sort phase shared by `getGlobalMax`, `getGlobalMin` and
`getMinAtFreqIndex`: empty-event check, pre-roll of every event with
`time ≤ start` (added unconditionally), extremum seeding, then the chunk
loop. -/
def processChanges {σ : Type} (start : ℚ) (changes : List SignalChange) (init : σ)
    (addSig : σ → SignalChange → σ) (apply : σ → SignalChange → σ) (eval : σ → ℚ)
    (better : ℚ → ℚ → ℚ) : ℚ :=
  if changes.isEmpty then 0
  else
    let pre := changes.takeWhile fun c => decide (c.time ≤ start)
    let rest := changes.dropWhile fun c => decide (c.time ≤ start)
    let acc := pre.foldl addSig init
    sweepLoop apply eval better rest acc (eval acc)

/-- The `getGlobalMax` computation on an already sorted event list. -/
def globalMaxProcess (start : ℚ) (spectrum : Nat) (changes : List SignalChange) : ℚ :=
  processChanges start changes (Signal.ofSpectrum spectrum)
    (fun acc c => acc + c.signal) applyChange Signal.getMax
    (fun m v => if v > m then v else m)

/-- The `getGlobalMin` computation on an already sorted event list. -/
def globalMinProcess (start : ℚ) (spectrum : Nat) (changes : List SignalChange) : ℚ :=
  processChanges start changes (Signal.ofSpectrum spectrum)
    (fun acc c => acc + c.signal) applyChange Signal.getDataMin
    (fun m v => if v < m then v else m)

/-- The `getMinAtFreqIndex` computation on an already sorted event list. -/
def minAtFreqProcess (start : ℚ) (freqIndex : Nat) (changes : List SignalChange) : ℚ :=
  processChanges start changes (0 : ℚ)
    (fun acc c => acc + c.signal.at freqIndex) (applyChangeAt freqIndex) id
    (fun m v => if v < m then v else m)

/-- `getGlobalMax` of `SignalUtils.cc`. -/
def getGlobalMax (start endT : ℚ) (airFrames : List AirFrame) : ℚ :=
  match airFrames with
  | [] => 0
  | f0 :: _ =>
    globalMaxProcess start f0.signal.spectrum
      (sortChanges (calculateChanges start endT airFrames none))

/-- `getGlobalMin` of `SignalUtils.cc`. -/
def getGlobalMin (start endT : ℚ) (airFrames : List AirFrame) : ℚ :=
  match airFrames with
  | [] => 0
  | f0 :: _ =>
    globalMinProcess start f0.signal.spectrum
      (sortChanges (calculateChanges start endT airFrames none))

/-- `getMinAtFreqIndex` of `SignalUtils.cc`. -/
def getMinAtFreqIndex (start endT : ℚ) (airFrames : List AirFrame) (freqIndex : Nat)
    (exclude : Option AirFrame) : ℚ :=
  match airFrames with
  | [] => 0
  | _ :: _ =>
    minAtFreqProcess start freqIndex
      (sortChanges (calculateChanges start endT airFrames exclude))

/-- `powerLevelSumAtFrequencyIndex` of `SignalUtils.cc`. -/
def powerLevelSumAtFrequencyIndex (signals : List Signal) (freqIndex : Nat) : ℚ :=
  signals.foldl (fun powerLevelSum s => powerLevelSum + s.at freqIndex) 0

/-- The loop state of `getMaxInterference`: the per-bin maximum tracker, the
running total, the priority queue of active signals ordered by ascending
reception end (kept as a sorted list), and the time cursor. -/
structure GmiState where
  maxInterference : Signal
  currentInterference : Signal
  signalEndings : List Signal
  currentTime : ℚ

/-- `signalEndings.push(signal)`: insertion keeping the queue sorted by
ascending reception end (the observable order of a min-heap on
`getReceptionEnd`). -/
def pqPush (s : Signal) (q : List Signal) : List Signal :=
  match q with
  | [] => [s]
  | t :: rest => if s.receptionEnd ≤ t.receptionEnd then s :: t :: rest else t :: pqPush s rest

/-- The eviction loop of `getMaxInterference`: pop every queue-top signal whose
reception end is `≤ currentTime`, subtracting it from the running total. -/
def popExpired : List Signal → Signal → ℚ → List Signal × Signal
  | [], cur, _ => ([], cur)
  | s :: rest, cur, t =>
    if s.receptionEnd ≤ t then popExpired rest (cur - s) t else (s :: rest, cur)

/-- `maxInterference.at(i) = max(currentInterference.at(i), maxInterference.at(i))`
for every bin `i` of `[ds, de)`: the per-bin tracker update written through
`Signal::at` (it does not touch the tracker's populated range). -/
def updateMaxInRange (maxI cur : Signal) (ds de : Nat) : Signal :=
  { maxI with values := fun j => if ds ≤ j ∧ j < de then max (cur.values j) (maxI.values j)
                                 else maxI.values j }

/-- The interferer loop of `getMaxInterference`, including the identity skip,
the window skip and the early `break` once the cursor reaches `end`. -/
def gmiLoop (endT : ℚ) (refTreeId : Nat) (start : ℚ) :
    List AirFrame → GmiState → Signal
  | [], st => st.maxInterference
  | f :: rest, st =>
    if f.treeId = refTreeId then gmiLoop endT refTreeId start rest st
    else if f.signal.receptionEnd ≤ start ∨ f.signal.receptionStart > endT then
      gmiLoop endT refTreeId start rest st
    else
      let q := pqPush f.signal st.signalEndings
      let t := f.signal.receptionStart
      if t ≥ endT then st.maxInterference
      else
        let pc := popExpired q st.currentInterference t
        let cur := pc.2 + f.signal
        let maxI := updateMaxInRange st.maxInterference cur f.signal.dataStart f.signal.dataEnd
        gmiLoop endT refTreeId start rest ⟨maxI, cur, pc.1, t⟩

/-- `getMaxInterference` of `SignalUtils.cc`. -/
def getMaxInterference (start endT : ℚ) (referenceFrame : AirFrame)
    (interfererFrames : List AirFrame) : Signal :=
  let spectrum := referenceFrame.signal.spectrum
  gmiLoop endT referenceFrame.treeId start interfererFrames
    ⟨Signal.ofSpectrum spectrum, Signal.ofSpectrum spectrum, [], 0⟩

/-- The interferer filter of `isChannelPowerBelowThreshold`: active at `now`
(the reception interval contains `now`) and not pointer-equal to `exclude`. -/
def isInterferer (now : ℚ) (exclude : Option AirFrame) (f : AirFrame) : Bool :=
  decide (f.signal.receptionStart ≤ now) && decide (now < f.signal.receptionEnd) &&
    !sameObject f exclude

/-- The attenuation loop of `isChannelPowerBelowThreshold`: apply stage `idx`
to every filtered interferer (in place, modelled by rebuilding the frame list),
re-check the power sum, and stop early once it drops below the threshold.
`fuel` counts the stages still to run. -/
def applyStagesLoop (now : ℚ) (freqIndex : Nat) (threshold : ℚ) (exclude : Option AirFrame) :
    Nat → Nat → List AirFrame → Bool × List AirFrame
  | 0, _, frames => (false, frames)
  | fuel + 1, idx, frames =>
    let frames' := frames.map fun f =>
      if isInterferer now exclude f then { f with signal := f.signal.applyAnalogueModel idx } else f
    if powerLevelSumAtFrequencyIndex ((frames'.filter (isInterferer now exclude)).map (·.signal))
        freqIndex < threshold then (true, frames')
    else applyStagesLoop now freqIndex threshold exclude fuel (idx + 1) frames'

/-- `isChannelPowerBelowThreshold` of `SignalUtils.cc`. The boolean result is
paired with the frame collection after the in-place attenuation the call
performs on the filtered interferers. -/
def isChannelPowerBelowThreshold (now : ℚ) (interfererFrames : List AirFrame)
    (freqIndex : Nat) (threshold : ℚ) (exclude : Option AirFrame) : Bool × List AirFrame :=
  match interfererFrames with
  | [] => (true, [])
  | f0 :: rest =>
    let frames := f0 :: rest
    let interferers := (frames.filter (isInterferer now exclude)).map (·.signal)
    if powerLevelSumAtFrequencyIndex interferers freqIndex < threshold then (true, frames)
    else
      let analogueModelCount := f0.signal.analogueModels.length
      applyStagesLoop now freqIndex threshold exclude analogueModelCount 0 frames

/-- `getMinSINR` of `SignalUtils.cc`; the C++ `INFINITY` seed of the minimum
fold is modelled by `⊤` of `WithTop ℚ`. -/
def getMinSINR (start endT : ℚ) (signalFrame : AirFrame) (interfererFrames : List AirFrame)
    (noise : ℚ) : WithTop ℚ :=
  let signalFrame' := { signalFrame with signal := signalFrame.signal.applyAllAnalogueModels }
  let interfererFrames' := interfererFrames.map fun f =>
    { f with signal := f.signal.applyAllAnalogueModels }
  let signal := signalFrame'.signal
  let interference := getMaxInterference start endT signalFrame' interfererFrames'
  let sinr := Signal.divSig signal (interference.addConstant noise)
  (List.range' signal.dataStart (signal.dataEnd - signal.dataStart)).foldl
    (fun m i => min m ((sinr.at i : ℚ) : WithTop ℚ)) ⊤

/-- A signal of constant power `p` on its populated range `[ds, de)` and zero
outside it (the data-model invariant), with a one-bin spectrum. -/
def constSignal (p : ℚ) (ds de : Nat) (rs re : ℚ) : Signal :=
  ⟨1, fun j => if ds ≤ j ∧ j < de then p else 0, ds, de, rs, re, [], 0⟩

/-- A frame carrying a `constSignal` populated on the single bin `0`. -/
def constFrame (tid oid : Nat) (p : ℚ) (rs re : ℚ) : AirFrame :=
  ⟨tid, oid, constSignal p 0 1 rs re⟩


/-- Claim-side definition: the sum, at bin `j`, of the signals of the
non-excluded frames whose reception interval contains the instant `t`. -/
def activeFramesSum (frames : List AirFrame) (exclude : Option AirFrame) (t : ℚ) (j : Nat) : ℚ :=
  ((frames.filter fun f => !sameObject f exclude && decide (f.signal.receptionStart ≤ t) &&
      decide (t < f.signal.receptionEnd)).map fun f => f.signal.values j).sum

/-- Claim-side definition: the sum, at bin `j`, of the powers of all
interferer signals (excluding frames with the reference identity) whose
reception interval contains `t` -- the quantity C1 says `getMaxInterference`
maximises over the window. -/
def interferenceSumAt (frames : List AirFrame) (refTreeId : Nat) (t : ℚ) (j : Nat) : ℚ :=
  ((frames.filter fun f => decide (f.treeId ≠ refTreeId) &&
      decide (f.signal.receptionStart ≤ t) && decide (t < f.signal.receptionEnd)).map
    fun f => f.signal.values j).sum

/-- Like `interferenceSumAt`, additionally discarding signals whose reception
starts at or after `endT` (the amendment forced by the early `break` of
`getMaxInterference`). -/
def boundedInterferenceSumAt (frames : List AirFrame) (refTreeId : Nat) (endT t : ℚ)
    (j : Nat) : ℚ :=
  ((frames.filter fun f => decide (f.treeId ≠ refTreeId) &&
      decide (f.signal.receptionStart ≤ t) && decide (t < f.signal.receptionEnd) &&
      decide (f.signal.receptionStart < endT)).map fun f => f.signal.values j).sum

/-- The sum, at bin `j`, of the signals of an (already filtered) frame list
active at instant `t`; proof device for `getMaxInterference`. -/
def activeSumAt (l : List AirFrame) (t : ℚ) (j : Nat) : ℚ :=
  ((l.filter fun f => decide (f.signal.receptionStart ≤ t) &&
      decide (t < f.signal.receptionEnd)).map fun f => f.signal.values j).sum

/-- The frames of the interferer collection that `getMaxInterference` fully
processes: identity differs from the reference, the reception interval meets
the window, and the reception start lies before `endT` (otherwise the loop
breaks). -/
def gmiKeep (refTreeId : Nat) (start endT : ℚ) (f : AirFrame) : Bool :=
  decide (f.treeId ≠ refTreeId) &&
    !(decide (f.signal.receptionEnd ≤ start) || decide (f.signal.receptionStart > endT)) &&
    decide (f.signal.receptionStart < endT)

/-- Specification-level replay of the `getMaxInterference` loop at one bin
`j`: processing the frames of `S` after those of `Q`, the running maximum `m`
is updated, at each arrival whose populated range covers `j`, with the total
power at `j` of the frames active at that arrival instant. -/
def gmiSpec (j : Nat) : List AirFrame → List AirFrame → ℚ → ℚ
  | _, [], m => m
  | q, f :: s, m =>
    gmiSpec j (q ++ [f]) s
      (if f.signal.dataStart ≤ j ∧ j < f.signal.dataEnd then
        max (activeSumAt (q ++ [f]) f.signal.receptionStart j) m
      else m)

/-! ## Basic lemmas about the modelled `Signal` operations -/

theorem Signal.add_values (a b : Signal) (j : Nat) :
    (a + b).values j = a.values j + b.values j := rfl

theorem Signal.sub_values (a b : Signal) (j : Nat) :
    (a - b).values j = a.values j - b.values j := rfl

theorem Signal.at_def (s : Signal) (i : Nat) : s.at i = s.values i := rfl

theorem Signal.applyAnalogueModel_dataStart (s : Signal) (i : Nat) :
    (s.applyAnalogueModel i).dataStart = s.dataStart := by
  unfold Signal.applyAnalogueModel; split <;> rfl

theorem Signal.applyAnalogueModel_dataEnd (s : Signal) (i : Nat) :
    (s.applyAnalogueModel i).dataEnd = s.dataEnd := by
  unfold Signal.applyAnalogueModel; split <;> rfl

theorem foldl_applyAnalogueModel_dataStart (l : List Nat) :
    ∀ s : Signal, (l.foldl Signal.applyAnalogueModel s).dataStart = s.dataStart := by
  induction l with
  | nil => intro s; rfl
  | cons i t ih => intro s; rw [List.foldl_cons, ih, Signal.applyAnalogueModel_dataStart]

theorem foldl_applyAnalogueModel_dataEnd (l : List Nat) :
    ∀ s : Signal, (l.foldl Signal.applyAnalogueModel s).dataEnd = s.dataEnd := by
  induction l with
  | nil => intro s; rfl
  | cons i t ih => intro s; rw [List.foldl_cons, ih, Signal.applyAnalogueModel_dataEnd]

theorem Signal.applyAllAnalogueModels_dataStart (s : Signal) :
    s.applyAllAnalogueModels.dataStart = s.dataStart :=
  foldl_applyAnalogueModel_dataStart _ s

theorem Signal.applyAllAnalogueModels_dataEnd (s : Signal) :
    s.applyAllAnalogueModels.dataEnd = s.dataEnd :=
  foldl_applyAnalogueModel_dataEnd _ s

/-! ## C9: empty collections -/

/-- C9: for every window, `getGlobalMax`, `getGlobalMin` and `getMinAtFreqIndex`
return `0` on the empty signal collection (the guard fires before any event
extraction); an empty collection is a valid input, not an error. -/
theorem emptyCollection_returns_zero (start endT : ℚ) (freqIndex : Nat)
    (exclude : Option AirFrame) :
    getGlobalMax start endT [] = 0 ∧ getGlobalMin start endT [] = 0 ∧
      getMinAtFreqIndex start endT [] freqIndex exclude = 0 :=
  ⟨rfl, rfl, rfl⟩

/-! ## C10: `getMinSINR` on an empty populated bin range -/

/-- C10: whenever the reference signal's populated bin range is empty
(`dataStart = dataEnd`), `getMinSINR` returns positive infinity (modelled as
`⊤`): the minimum fold starts from `INFINITY` and the loop over the populated
range runs zero iterations. The first two hypotheses are the C++ `ASSERT`
preconditions of the call. -/
theorem getMinSINR_empty_data_range (start endT : ℚ) (signalFrame : AirFrame)
    (interfererFrames : List AirFrame) (noise : ℚ)
    (h1 : signalFrame.signal.receptionStart ≤ start)
    (h2 : endT ≤ signalFrame.signal.receptionEnd)
    (hde : signalFrame.signal.dataStart = signalFrame.signal.dataEnd) :
    getMinSINR start endT signalFrame interfererFrames noise = ⊤ := by
  simp only [getMinSINR]
  rw [Signal.applyAllAnalogueModels_dataStart, Signal.applyAllAnalogueModels_dataEnd, hde,
    Nat.sub_self]
  rfl

/-- Witness for C10 at a concrete input. -/
theorem getMinSINR_empty_data_range_witness :
    (constSignal 5 0 0 0 10).receptionStart ≤ 0 ∧ (2 : ℚ) ≤ (constSignal 5 0 0 0 10).receptionEnd ∧
      getMinSINR 0 2 ⟨1, 1, constSignal 5 0 0 0 10⟩ [] 3 = ⊤ :=
  ⟨by with_unfolding_all decide, by with_unfolding_all decide,
    getMinSINR_empty_data_range 0 2 ⟨1, 1, constSignal 5 0 0 0 10⟩ [] 3
      (by with_unfolding_all decide) (by with_unfolding_all decide) rfl⟩

/-! ## C8: early exit of the channel threshold test -/

/-- C8: whenever the sum of the active interferers' current (unattenuated)
power at the queried bin is already below the threshold,
`isChannelPowerBelowThreshold` returns `true` without entering the attenuation
loop, leaving every frame's signal (in particular every interferer's power
vector) unchanged. -/
theorem channelBelowThreshold_early_exit (now : ℚ) (frames : List AirFrame) (freqIndex : Nat)
    (threshold : ℚ) (exclude : Option AirFrame)
    (h : powerLevelSumAtFrequencyIndex ((frames.filter (isInterferer now exclude)).map (·.signal))
        freqIndex < threshold) :
    isChannelPowerBelowThreshold now frames freqIndex threshold exclude = (true, frames) := by
  cases frames with
  | nil => rfl
  | cons f0 rest =>
    simp only [isChannelPowerBelowThreshold]
    rw [if_pos h]

/-- Witness for C8 at a concrete input: one active interferer of power 5,
threshold 7. -/
theorem channelBelowThreshold_early_exit_witness :
    powerLevelSumAtFrequencyIndex
        (([constFrame 1 1 5 0 10].filter (isInterferer 2 none)).map (·.signal)) 0 < 7 ∧
      isChannelPowerBelowThreshold 2 [constFrame 1 1 5 0 10] 0 7 none =
        (true, [constFrame 1 1 5 0 10]) :=
  ⟨by with_unfolding_all decide,
    channelBelowThreshold_early_exit 2 [constFrame 1 1 5 0 10] 0 7 none
      (by with_unfolding_all decide)⟩

/-! ## C7: channel threshold test with no active interferer -/

theorem filter_eq_nil_of_false {α : Type} (p : α → Bool) :
    ∀ l : List α, (∀ a ∈ l, p a = false) → l.filter p = [] := by
  intro l
  induction l with
  | nil => intro _; rfl
  | cons a t ih =>
    intro h
    rw [List.filter_cons, h a (List.mem_cons_self a t)]
    exact ih fun b hb => h b (List.mem_cons_of_mem a hb)

/-- Counterexample to C7 as stated: with threshold `0`, a nonempty collection
whose only frame is inactive at `now = 0` makes `isChannelPowerBelowThreshold`
return `false` (the empty interferer sum `0` is not `< 0`), although no frame
other than the excluded one is active. -/
theorem channelBelowThreshold_cx :
    (∀ f ∈ [constFrame 1 1 5 1 2],
      ¬(f.signal.receptionStart ≤ 0 ∧ 0 < f.signal.receptionEnd ∧ sameObject f none = false)) ∧
      (isChannelPowerBelowThreshold 0 [constFrame 1 1 5 1 2] 0 0 none).1 = false := by
  with_unfolding_all decide

/-- C7 as amended: for every instant, every *positive* threshold and every
interferer collection in which no frame other than the excluded frame is
active at `now`, `isChannelPowerBelowThreshold` returns `true`; the empty
collection yields `true` for every threshold (positive or not). -/
theorem channelBelowThreshold_no_active (now : ℚ) (frames : List AirFrame) (freqIndex : Nat)
    (threshold : ℚ) (exclude : Option AirFrame) (hth : 0 < threshold)
    (hno : ∀ f ∈ frames, f.signal.receptionStart ≤ now → now < f.signal.receptionEnd →
      sameObject f exclude = true) :
    (isChannelPowerBelowThreshold now frames freqIndex threshold exclude).1 = true ∧
      ∀ (th : ℚ) (fi : Nat) (ex : Option AirFrame),
        (isChannelPowerBelowThreshold now [] fi th ex).1 = true := by
  refine ⟨?_, fun th fi ex => rfl⟩
  have hfil : frames.filter (isInterferer now exclude) = [] := by
    apply filter_eq_nil_of_false
    intro f hf
    unfold isInterferer
    by_cases h1 : f.signal.receptionStart ≤ now
    · by_cases h2 : now < f.signal.receptionEnd
      · simp [h1, h2, hno f hf h1 h2]
      · simp [h2]
    · simp [h1]
  cases frames with
  | nil => rfl
  | cons f0 rest =>
    simp only [isChannelPowerBelowThreshold]
    rw [hfil]
    simp only [List.map_nil]
    rw [if_pos]
    show (0 : ℚ) < threshold
    exact hth

/-- Witness for the amended C7 at a concrete input. -/
theorem channelBelowThreshold_no_active_witness :
    (0 : ℚ) < 3 ∧
      (isChannelPowerBelowThreshold 0 [constFrame 1 1 5 1 2] 0 3 (some (constFrame 2 2 4 0 9))).1 =
        true :=
  ⟨by with_unfolding_all decide,
    (channelBelowThreshold_no_active 0 [constFrame 1 1 5 1 2] 0 3 (some (constFrame 2 2 4 0 9))
      (by with_unfolding_all decide)
      (by with_unfolding_all decide)).1⟩

/-! ## C4: which events `calculateChanges` emits -/

/-- Counterexample to C4 as stated: in a degenerate point query
(`start = end = 5`), a signal received on `[0, 10)` whose reception start is
not `5` still contributes one (Starting) event, because the general overlap
branch also fires when `start = end`. -/
theorem calculateChanges_point_query_cx :
    (constFrame 1 1 2 0 10).signal.receptionStart ≠ 5 ∧
      (calculateChanges 5 5 [constFrame 1 1 2 0 10] none).length = 1 := by
  with_unfolding_all decide

/-- C4 as amended: for `start < end` a frame contributes a Starting event at
its reception start exactly when `receptionStart < end ∧ receptionEnd > start`,
plus an Ending event at its reception end exactly when additionally
`receptionEnd ≤ end` (as claimed); for a degenerate point query
(`start = end`) a frame contributes a single Starting event exactly when its
reception start equals the instant *or its reception interval strictly
contains the instant* (the claim allowed only the first case). -/
theorem calculateChanges_events (start endT : ℚ) (f : AirFrame) :
    calculateChanges start endT [f] none = changesOfFrame start endT f ∧
      (start < endT →
        changesOfFrame start endT f =
          if f.signal.receptionStart < endT ∧ f.signal.receptionEnd > start then
            ⟨f.signal, ChangeType.starting, f.signal.receptionStart⟩ ::
              (if f.signal.receptionEnd ≤ endT then
                [⟨f.signal, ChangeType.ending, f.signal.receptionEnd⟩] else [])
          else []) ∧
      (start = endT →
        changesOfFrame start endT f =
          if f.signal.receptionStart = start ∨
              (f.signal.receptionStart < start ∧ f.signal.receptionEnd > start) then
            [⟨f.signal, ChangeType.starting, f.signal.receptionStart⟩]
          else []) := by
  refine ⟨by simp [calculateChanges, sameObject], ?_, ?_⟩
  · intro h
    unfold changesOfFrame
    rw [if_neg fun hc => absurd hc.1 (ne_of_lt h)]
  · intro h
    subst h
    unfold changesOfFrame
    by_cases hrs : f.signal.receptionStart = start
    · rw [if_pos ⟨rfl, hrs⟩, if_pos (Or.inl hrs)]
    · rw [if_neg fun hc => hrs hc.2]
      by_cases hgen : f.signal.receptionStart < start ∧ f.signal.receptionEnd > start
      · rw [if_pos hgen, if_pos (Or.inr hgen), if_neg (not_le.mpr hgen.2)]
      · rw [if_neg hgen, if_neg]
        intro hc
        rcases hc with hc | hc
        · exact hrs hc
        · exact hgen hc

/-- Witness for the amended C4 at concrete inputs: a frame received on
`[1, 3)` gets a Starting and an Ending event in the window `[0, 5]`, and a
frame received on `[0, 10)` gets a single Starting event in the point query
at `5`. -/
theorem calculateChanges_events_witness :
    ((0 : ℚ) < 5 ∧
      changesOfFrame 0 5 (constFrame 1 1 2 1 3) =
        [⟨(constFrame 1 1 2 1 3).signal, ChangeType.starting, 1⟩,
          ⟨(constFrame 1 1 2 1 3).signal, ChangeType.ending, 3⟩]) ∧
      changesOfFrame 5 5 (constFrame 1 1 2 0 10) =
        [⟨(constFrame 1 1 2 0 10).signal, ChangeType.starting, 0⟩] := by
  constructor
  · refine ⟨by norm_num, ?_⟩
    rw [(calculateChanges_events 0 5 (constFrame 1 1 2 1 3)).2.1 (by norm_num)]
    rw [if_pos (by with_unfolding_all decide), if_pos (by with_unfolding_all decide)]
    rfl
  · rw [(calculateChanges_events 5 5 (constFrame 1 1 2 0 10)).2.2 rfl]
    rw [if_pos (by with_unfolding_all decide)]
    rfl

/-! ## C2: a single constant-power signal -/

theorem foldl_max_const (l : List ℚ) (x : ℚ) (h : ∀ y ∈ l, y = x) : l.foldl max x = x := by
  induction l with
  | nil => rfl
  | cons a t ih =>
    rw [List.foldl_cons, h a (List.mem_cons_self a t), max_self]
    exact ih fun y hy => h y (List.mem_cons_of_mem a hy)

theorem foldl_min_const (l : List ℚ) (x : ℚ) (h : ∀ y ∈ l, y = x) : l.foldl min x = x := by
  induction l with
  | nil => rfl
  | cons a t ih =>
    rw [List.foldl_cons, h a (List.mem_cons_self a t), min_self]
    exact ih fun y hy => h y (List.mem_cons_of_mem a hy)

theorem Signal.binRange_all_const {s : Signal} {p : ℚ}
    (hp : ∀ j, s.dataStart ≤ j → j < s.dataEnd → s.values j = p) :
    ∀ y ∈ s.binRange.map s.values, y = p := by
  intro y hy
  obtain ⟨j, hj, rfl⟩ := List.mem_map.mp hy
  obtain ⟨hj1, hj2⟩ := List.mem_range'_1.mp hj
  exact hp j hj1 (by omega)

theorem Signal.getMax_const {s : Signal} {p : ℚ} (hne : s.dataStart < s.dataEnd)
    (hp : ∀ j, s.dataStart ≤ j → j < s.dataEnd → s.values j = p) : s.getMax = p := by
  unfold Signal.getMax
  have hall := Signal.binRange_all_const hp
  obtain ⟨n, hn⟩ : ∃ n, s.dataEnd - s.dataStart = n + 1 :=
    ⟨s.dataEnd - s.dataStart - 1, by omega⟩
  revert hall
  unfold Signal.binRange
  rw [hn, List.range'_succ]
  intro hall
  simp only [List.map_cons]
  rw [hall (s.values s.dataStart) (by simp [List.range'_succ])]
  exact foldl_max_const _ _ fun y hy => hall y (by simp [List.range'_succ, hy])

theorem Signal.getDataMin_const {s : Signal} {p : ℚ} (hne : s.dataStart < s.dataEnd)
    (hp : ∀ j, s.dataStart ≤ j → j < s.dataEnd → s.values j = p) : s.getDataMin = p := by
  unfold Signal.getDataMin
  have hall := Signal.binRange_all_const hp
  obtain ⟨n, hn⟩ : ∃ n, s.dataEnd - s.dataStart = n + 1 :=
    ⟨s.dataEnd - s.dataStart - 1, by omega⟩
  revert hall
  unfold Signal.binRange
  rw [hn, List.range'_succ]
  intro hall
  simp only [List.map_cons]
  rw [hall (s.values s.dataStart) (by simp [List.range'_succ])]
  exact foldl_min_const _ _ fun y hy => hall y (by simp [List.range'_succ, hy])

theorem changesOfFrame_inside_window {qs qe : ℚ} {f : AirFrame}
    (h1 : f.signal.receptionStart ≤ qs) (h2 : qs ≤ qe) (h3 : qe < f.signal.receptionEnd) :
    changesOfFrame qs qe f = [⟨f.signal, ChangeType.starting, f.signal.receptionStart⟩] := by
  unfold changesOfFrame
  by_cases hq : qs = qe ∧ f.signal.receptionStart = qs
  · rw [if_pos hq]
  · have hrs_lt : f.signal.receptionStart < qe := by
      rcases lt_or_eq_of_le (le_trans h1 h2) with h | h
      · exact h
      · exact absurd ⟨by linarith, by linarith⟩ hq
    rw [if_neg hq, if_pos ⟨hrs_lt, lt_of_le_of_lt h2 h3⟩, if_neg (not_le.mpr h3)]

/-- The accumulator after adding one signal to a fresh `Signal(spectrum)`. -/
theorem ofSpectrum_add (n : Nat) (s : Signal) (hne : s.dataStart < s.dataEnd) :
    (Signal.ofSpectrum n + s).dataStart = s.dataStart ∧
      (Signal.ofSpectrum n + s).dataEnd = s.dataEnd ∧
      ∀ j, (Signal.ofSpectrum n + s).values j = s.values j := by
  show (Signal.add _ s).dataStart = _ ∧ (Signal.add _ s).dataEnd = _ ∧ _
  unfold Signal.add unionRange Signal.ofSpectrum
  simp only
  rw [if_pos (le_refl 0), if_neg (not_le.mpr hne)]
  exact ⟨rfl, rfl, fun j => zero_add _⟩

/-- C2: for a collection holding exactly one signal of constant power `p` on
its (nonempty) populated bin range, active on `[receptionStart, receptionEnd)`,
both `getGlobalMax` and `getGlobalMin` return `p` for every query window
`[qs, qe]` contained in that reception interval. -/
theorem singleConstantSignal_extrema (f : AirFrame) (p qs qe : ℚ)
    (hp : ∀ j, f.signal.dataStart ≤ j → j < f.signal.dataEnd → f.signal.values j = p)
    (hne : f.signal.dataStart < f.signal.dataEnd)
    (h1 : f.signal.receptionStart ≤ qs) (h2 : qs ≤ qe) (h3 : qe < f.signal.receptionEnd) :
    getGlobalMax qs qe [f] = p ∧ getGlobalMin qs qe [f] = p := by
  have hch : calculateChanges qs qe [f] none =
      [⟨f.signal, ChangeType.starting, f.signal.receptionStart⟩] := by
    simp [calculateChanges, sameObject]
    exact changesOfFrame_inside_window h1 h2 h3
  have hsort : sortChanges (calculateChanges qs qe [f] none) =
      [⟨f.signal, ChangeType.starting, f.signal.receptionStart⟩] := by
    rw [hch]; rfl
  obtain ⟨hds, hde, hv⟩ := ofSpectrum_add f.signal.spectrum f.signal hne
  have hacc_max : (Signal.ofSpectrum f.signal.spectrum + f.signal).getMax = p :=
    Signal.getMax_const (by rw [hds, hde]; exact hne)
      (fun j hj1 hj2 => by rw [hv]; exact hp j (by rwa [hds] at hj1) (by rwa [hde] at hj2))
  have hacc_min : (Signal.ofSpectrum f.signal.spectrum + f.signal).getDataMin = p :=
    Signal.getDataMin_const (by rw [hds, hde]; exact hne)
      (fun j hj1 hj2 => by rw [hv]; exact hp j (by rwa [hds] at hj1) (by rwa [hde] at hj2))
  constructor
  · show globalMaxProcess qs f.signal.spectrum (sortChanges (calculateChanges qs qe [f] none)) = p
    rw [hsort]
    unfold globalMaxProcess processChanges
    rw [if_neg (by simp)]
    rw [List.takeWhile_cons, List.dropWhile_cons, if_pos (decide_eq_true h1),
      if_pos (decide_eq_true h1)]
    exact hacc_max
  · show globalMinProcess qs f.signal.spectrum (sortChanges (calculateChanges qs qe [f] none)) = p
    rw [hsort]
    unfold globalMinProcess processChanges
    rw [if_neg (by simp)]
    rw [List.takeWhile_cons, List.dropWhile_cons, if_pos (decide_eq_true h1),
      if_pos (decide_eq_true h1)]
    exact hacc_min

/-- Witness for C2 at a concrete input: constant power 5 on `[0, 10)`, window
`[2, 3]`. -/
theorem singleConstantSignal_extrema_witness :
    (constFrame 1 1 5 0 10).signal.dataStart < (constFrame 1 1 5 0 10).signal.dataEnd ∧
      getGlobalMax 2 3 [constFrame 1 1 5 0 10] = 5 ∧ getGlobalMin 2 3 [constFrame 1 1 5 0 10] = 5 :=
  ⟨by with_unfolding_all decide,
    (singleConstantSignal_extrema (constFrame 1 1 5 0 10) 5 2 3
      (fun j hj1 hj2 => by simp [constFrame, constSignal] at hj2 ⊢; simp [hj2])
      (by with_unfolding_all decide) (by with_unfolding_all decide)
      (by with_unfolding_all decide) (by with_unfolding_all decide)).1,
    (singleConstantSignal_extrema (constFrame 1 1 5 0 10) 5 2 3
      (fun j hj1 hj2 => by simp [constFrame, constSignal] at hj2 ⊢; simp [hj2])
      (by with_unfolding_all decide) (by with_unfolding_all decide)
      (by with_unfolding_all decide) (by with_unfolding_all decide)).2⟩

/-! ## Commutation lemmas for the accumulator operations -/

theorem Signal.ext' {a b : Signal} (h1 : a.spectrum = b.spectrum) (h2 : a.values = b.values)
    (h3 : a.dataStart = b.dataStart) (h4 : a.dataEnd = b.dataEnd)
    (h5 : a.receptionStart = b.receptionStart) (h6 : a.receptionEnd = b.receptionEnd)
    (h7 : a.analogueModels = b.analogueModels)
    (h8 : a.numAnalogueModelsApplied = b.numAnalogueModelsApplied) : a = b := by
  cases a; cases b
  simp only at h1 h2 h3 h4 h5 h6 h7 h8
  subst h1; subst h2; subst h3; subst h4; subst h5; subst h6; subst h7; subst h8
  rfl

theorem unionRange_right_comm (a x y : Nat × Nat) :
    unionRange (unionRange a x) y = unionRange (unionRange a y) x := by
  obtain ⟨a1, a2⟩ := a; obtain ⟨x1, x2⟩ := x; obtain ⟨y1, y2⟩ := y
  unfold unionRange
  dsimp only
  split_ifs <;> (try rfl) <;> (try (exfalso; omega)) <;>
    (apply Prod.ext <;> dsimp only <;> omega)

theorem Signal.add_dataRange (a b : Signal) :
    ((a + b).dataStart, (a + b).dataEnd) = unionRange (a.dataStart, a.dataEnd)
      (b.dataStart, b.dataEnd) := rfl

theorem Signal.sub_dataRange (a b : Signal) :
    ((a - b).dataStart, (a - b).dataEnd) = unionRange (a.dataStart, a.dataEnd)
      (b.dataStart, b.dataEnd) := rfl

theorem Signal.add_spectrum (a b : Signal) : (a + b).spectrum = a.spectrum := rfl

theorem Signal.add_add_comm (a x y : Signal) : a + x + y = a + y + x := by
  apply Signal.ext'
  · rfl
  · funext j
    show a.values j + x.values j + y.values j = a.values j + y.values j + x.values j
    ring
  · show (unionRange (unionRange (a.dataStart, a.dataEnd) (x.dataStart, x.dataEnd))
        (y.dataStart, y.dataEnd)).1 = (unionRange (unionRange (a.dataStart, a.dataEnd)
        (y.dataStart, y.dataEnd)) (x.dataStart, x.dataEnd)).1
    rw [unionRange_right_comm]
  · show (unionRange (unionRange (a.dataStart, a.dataEnd) (x.dataStart, x.dataEnd))
        (y.dataStart, y.dataEnd)).2 = (unionRange (unionRange (a.dataStart, a.dataEnd)
        (y.dataStart, y.dataEnd)) (x.dataStart, x.dataEnd)).2
    rw [unionRange_right_comm]
  · rfl
  · rfl
  · rfl
  · rfl

theorem Signal.add_sub_comm (a x y : Signal) : a + x - y = a - y + x := by
  apply Signal.ext'
  · rfl
  · funext j
    show a.values j + x.values j - y.values j = a.values j - y.values j + x.values j
    ring
  · show (unionRange (unionRange (a.dataStart, a.dataEnd) (x.dataStart, x.dataEnd))
        (y.dataStart, y.dataEnd)).1 = (unionRange (unionRange (a.dataStart, a.dataEnd)
        (y.dataStart, y.dataEnd)) (x.dataStart, x.dataEnd)).1
    rw [unionRange_right_comm]
  · show (unionRange (unionRange (a.dataStart, a.dataEnd) (x.dataStart, x.dataEnd))
        (y.dataStart, y.dataEnd)).2 = (unionRange (unionRange (a.dataStart, a.dataEnd)
        (y.dataStart, y.dataEnd)) (x.dataStart, x.dataEnd)).2
    rw [unionRange_right_comm]
  · rfl
  · rfl
  · rfl
  · rfl

theorem Signal.sub_sub_comm (a x y : Signal) : a - x - y = a - y - x := by
  apply Signal.ext'
  · rfl
  · funext j
    show a.values j - x.values j - y.values j = a.values j - y.values j - x.values j
    ring
  · show (unionRange (unionRange (a.dataStart, a.dataEnd) (x.dataStart, x.dataEnd))
        (y.dataStart, y.dataEnd)).1 = (unionRange (unionRange (a.dataStart, a.dataEnd)
        (y.dataStart, y.dataEnd)) (x.dataStart, x.dataEnd)).1
    rw [unionRange_right_comm]
  · show (unionRange (unionRange (a.dataStart, a.dataEnd) (x.dataStart, x.dataEnd))
        (y.dataStart, y.dataEnd)).2 = (unionRange (unionRange (a.dataStart, a.dataEnd)
        (y.dataStart, y.dataEnd)) (x.dataStart, x.dataEnd)).2
    rw [unionRange_right_comm]
  · rfl
  · rfl
  · rfl
  · rfl

theorem applyChange_right_comm (acc : Signal) (c d : SignalChange) :
    applyChange (applyChange acc c) d = applyChange (applyChange acc d) c := by
  unfold applyChange
  cases c.type <;> cases d.type <;> dsimp only <;>
    first
      | rfl
      | exact Signal.add_add_comm acc c.signal d.signal
      | exact Signal.add_sub_comm acc c.signal d.signal
      | exact (Signal.add_sub_comm acc d.signal c.signal).symm
      | exact Signal.sub_sub_comm acc c.signal d.signal

theorem applyChangeAt_right_comm (freqIndex : Nat) (acc : ℚ) (c d : SignalChange) :
    applyChangeAt freqIndex (applyChangeAt freqIndex acc c) d =
      applyChangeAt freqIndex (applyChangeAt freqIndex acc d) c := by
  unfold applyChangeAt
  cases c.type <;> cases d.type <;> dsimp only <;> ring

theorem perm_foldl {α β : Type} (f : β → α → β)
    (hf : ∀ b a a', f (f b a) a' = f (f b a') a) :
    ∀ {l1 l2 : List α}, l1.Perm l2 → ∀ b, l1.foldl f b = l2.foldl f b := by
  intro l1 l2 h
  induction h with
  | nil => intro b; rfl
  | cons x _ ih => intro b; rw [List.foldl_cons, List.foldl_cons, ih]
  | swap x y l => intro b; rw [List.foldl_cons, List.foldl_cons, List.foldl_cons,
      List.foldl_cons, hf]
  | trans _ _ ih1 ih2 => intro b; rw [ih1, ih2]

/-! ## takeWhile and dropWhile on sorted event lists -/

theorem takeWhile_eq_filter_of_sorted (p : SignalChange → Bool) :
    ∀ l : List SignalChange,
      (∀ a ∈ l, ∀ b ∈ l, timeLE a b → p b = true → p a = true) →
      l.Sorted timeLE → l.takeWhile p = l.filter p := by
  intro l
  induction l with
  | nil => intro _ _; rfl
  | cons c t ih =>
    intro hp hs
    obtain ⟨hhead, htail⟩ := List.sorted_cons.mp hs
    cases hc : p c with
    | true =>
      rw [List.takeWhile_cons_of_pos hc, List.filter_cons_of_pos hc,
        ih (fun a ha b hb hab hb' => hp a (List.mem_cons_of_mem c ha) b
          (List.mem_cons_of_mem c hb) hab hb') htail]
    | false =>
      rw [List.takeWhile_cons_of_neg (by simp [hc]), List.filter_cons_of_neg (by simp [hc])]
      symm
      exact filter_eq_nil_of_false p t fun b hb => by
        cases hb' : p b with
        | true =>
          exact absurd (hp c (List.mem_cons_self c t) b (List.mem_cons_of_mem c hb)
            (hhead b hb) hb') (by simp [hc])
        | false => rfl

theorem dropWhile_eq_filter_of_sorted (p : SignalChange → Bool) :
    ∀ l : List SignalChange,
      (∀ a ∈ l, ∀ b ∈ l, timeLE a b → p b = true → p a = true) →
      l.Sorted timeLE → l.dropWhile p = l.filter fun c => !p c := by
  intro l
  induction l with
  | nil => intro _ _; rfl
  | cons c t ih =>
    intro hp hs
    obtain ⟨hhead, htail⟩ := List.sorted_cons.mp hs
    cases hc : p c with
    | true =>
      rw [List.dropWhile_cons_of_pos hc, List.filter_cons_of_neg (by simp [hc]),
        ih (fun a ha b hb hab hb' => hp a (List.mem_cons_of_mem c ha) b
          (List.mem_cons_of_mem c hb) hab hb') htail]
    | false =>
      rw [List.dropWhile_cons_of_neg (by simp [hc]), List.filter_cons_of_pos (by simp [hc])]
      congr 1
      symm
      apply List.filter_eq_self.mpr
      intro b hb
      cases hb' : p b with
      | true =>
        exact absurd (hp c (List.mem_cons_self c t) b (List.mem_cons_of_mem c hb)
          (hhead b hb) hb') (by simp [hc])
      | false => simp [hb']

/-! ## C5: the pre-roll phase -/

theorem filter_flatMap {α β : Type} (g : α → List β) (p : β → Bool) :
    ∀ l : List α, (l.flatMap g).filter p = l.flatMap fun a => (g a).filter p := by
  intro l
  induction l with
  | nil => rfl
  | cons a t ih => rw [List.flatMap_cons, List.flatMap_cons, List.filter_append, ih]

/-- Every event a frame contributes is either a Starting event at its
reception start, or an Ending event at its reception end with
`receptionEnd > start`. -/
theorem changesOfFrame_mem {start endT : ℚ} {f : AirFrame} {c : SignalChange}
    (hc : c ∈ changesOfFrame start endT f) :
    c.signal = f.signal ∧
      ((c.type = ChangeType.starting ∧ c.time = f.signal.receptionStart) ∨
        (c.type = ChangeType.ending ∧ c.time = f.signal.receptionEnd ∧
          start < f.signal.receptionEnd)) := by
  unfold changesOfFrame at hc
  by_cases h1 : start = endT ∧ f.signal.receptionStart = start
  · rw [if_pos h1] at hc
    rcases List.mem_singleton.mp hc with rfl
    exact ⟨rfl, Or.inl ⟨rfl, rfl⟩⟩
  · rw [if_neg h1] at hc
    by_cases h2 : f.signal.receptionStart < endT ∧ f.signal.receptionEnd > start
    · rw [if_pos h2] at hc
      rcases List.mem_cons.mp hc with rfl | hc
      · exact ⟨rfl, Or.inl ⟨rfl, rfl⟩⟩
      · by_cases h3 : f.signal.receptionEnd ≤ endT
        · rw [if_pos h3] at hc
          rcases List.mem_singleton.mp hc with rfl
          exact ⟨rfl, Or.inr ⟨rfl, rfl, h2.2⟩⟩
        · rw [if_neg h3] at hc
          exact absurd hc (List.not_mem_nil c)
    · rw [if_neg h2] at hc
      exact absurd hc (List.not_mem_nil c)

/-- The events of one frame surviving the pre-roll cut `time ≤ start`: exactly
one Starting event when the frame is active at `start`, none otherwise. -/
theorem changesOfFrame_filter_le_start {start endT : ℚ} {f : AirFrame}
    (hse : start ≤ endT) (hnd : f.signal.receptionStart < f.signal.receptionEnd) :
    (changesOfFrame start endT f).filter (fun c => decide (c.time ≤ start)) =
      if f.signal.receptionStart ≤ start ∧ start < f.signal.receptionEnd then
        [⟨f.signal, ChangeType.starting, f.signal.receptionStart⟩]
      else [] := by
  unfold changesOfFrame
  by_cases h1 : start = endT ∧ f.signal.receptionStart = start
  · rw [if_pos h1]
    rw [List.filter_cons_of_pos (by simp [h1.2]), List.filter_nil]
    rw [if_pos ⟨le_of_eq h1.2, h1.2 ▸ hnd⟩]
  · rw [if_neg h1]
    by_cases h2 : f.signal.receptionStart < endT ∧ f.signal.receptionEnd > start
    · rw [if_pos h2]
      have hend : (if f.signal.receptionEnd ≤ endT then
          ([⟨f.signal, ChangeType.ending, f.signal.receptionEnd⟩] : List SignalChange)
          else []).filter (fun c => decide (c.time ≤ start)) = [] := by
        split_ifs
        · rw [List.filter_cons_of_neg
            (by simp only [decide_eq_true_eq]; exact not_le.mpr h2.2), List.filter_nil]
        · rfl
      rw [List.filter_cons]
      by_cases h4 : f.signal.receptionStart ≤ start
      · rw [if_pos (by simp [h4]), hend, if_pos ⟨h4, h2.2⟩]
      · rw [if_neg (by simp [h4]), hend, if_neg fun hc => h4 hc.1]
    · rw [if_neg h2, List.filter_nil]
      rw [if_neg]
      intro hc
      apply h2
      refine ⟨?_, hc.2⟩
      by_contra h5
      rw [not_lt] at h5
      have hx := hc.1
      exact h1 ⟨by linarith, by linarith⟩

/-- The value, at one bin, of a fold adding whole signals. -/
theorem foldl_add_signal_values (j : Nat) :
    ∀ (l : List SignalChange) (acc : Signal),
      ((l.foldl (fun a c => a + c.signal) acc).values j) =
        acc.values j + (l.map fun c => c.signal.values j).sum := by
  intro l
  induction l with
  | nil => intro acc; simp
  | cons c t ih =>
    intro acc
    rw [List.foldl_cons, ih, List.map_cons, List.sum_cons, Signal.add_values]
    ring

/-- The scalar fold of `getMinAtFreqIndex`'s pre-roll. -/
theorem foldl_add_at (freqIndex : Nat) :
    ∀ (l : List SignalChange) (acc : ℚ),
      l.foldl (fun a c => a + c.signal.at freqIndex) acc =
        acc + (l.map fun c => c.signal.values freqIndex).sum := by
  intro l
  induction l with
  | nil => intro acc; simp
  | cons c t ih =>
    intro acc
    rw [List.foldl_cons, ih, List.map_cons, List.sum_cons, Signal.at_def]
    ring

/-- Summing one bin over the events surviving the pre-roll cut gives the sum
over the frames active at `start`. -/
theorem preroll_sum_eq (start endT : ℚ) (exclude : Option AirFrame) (j : Nat) :
    ∀ frames : List AirFrame,
      (∀ f ∈ frames, f.signal.receptionStart < f.signal.receptionEnd) → start ≤ endT →
      (((calculateChanges start endT frames exclude).filter
          (fun c => decide (c.time ≤ start))).map fun c => c.signal.values j).sum =
        activeFramesSum frames exclude start j := by
  intro frames
  induction frames with
  | nil => intro _ _; rfl
  | cons f t ih =>
    intro hnd hse
    have ht := ih (fun g hg => hnd g (List.mem_cons_of_mem f hg)) hse
    unfold calculateChanges at ht ⊢
    rw [List.flatMap_cons, List.filter_append, List.map_append, List.sum_append, ht]
    unfold activeFramesSum
    rw [List.filter_cons]
    by_cases hex : sameObject f exclude
    · rw [if_pos hex]
      simp only [hex, Bool.not_true, Bool.false_and, Bool.and_false]
      rw [if_neg (by simp)]
      simp [activeFramesSum]
    · have hex' : sameObject f exclude = false := by
        cases h : sameObject f exclude
        · rfl
        · exact absurd h hex
      rw [if_neg hex]
      rw [changesOfFrame_filter_le_start hse (hnd f (List.mem_cons_self f t))]
      by_cases hact : f.signal.receptionStart ≤ start ∧ start < f.signal.receptionEnd
      · rw [if_pos hact]
        rw [if_pos (by simp [hex', hact.1, hact.2])]
        simp only [List.map_cons, List.sum_cons, List.map_nil, List.sum_nil, activeFramesSum]
        ring
      · rw [if_neg hact]
        rw [if_neg (by
          simp only [Bool.and_eq_true, decide_eq_true_eq, Bool.not_eq_true']
          intro hc
          exact hact ⟨hc.1.2, hc.2⟩)]
        simp [activeFramesSum]

/-- C5: in the sorted event list consumed by `getGlobalMax`, `getGlobalMin`
and `getMinAtFreqIndex`, every event with `time ≤ start` is a Starting event,
and the pre-roll fold (which adds every such event's signal unconditionally)
leaves the accumulator -- vector or scalar -- equal to the sum of exactly the
non-excluded signals active at instant `start`. Non-degenerate reception
intervals (`receptionStart < receptionEnd`, the data-model invariant) and
`start ≤ end` are assumed. -/
theorem preroll_no_endings_and_active_sum (start endT : ℚ) (frames : List AirFrame)
    (exclude : Option AirFrame)
    (hnd : ∀ f ∈ frames, f.signal.receptionStart < f.signal.receptionEnd)
    (hse : start ≤ endT) :
    (∀ c ∈ sortChanges (calculateChanges start endT frames exclude),
        c.time ≤ start → c.type = ChangeType.starting) ∧
      (∀ spectrum j,
        (((sortChanges (calculateChanges start endT frames exclude)).takeWhile
            fun c => decide (c.time ≤ start)).foldl (fun acc c => acc + c.signal)
            (Signal.ofSpectrum spectrum)).values j = activeFramesSum frames exclude start j) ∧
      (∀ freqIndex,
        ((sortChanges (calculateChanges start endT frames exclude)).takeWhile
            fun c => decide (c.time ≤ start)).foldl (fun acc c => acc + c.signal.at freqIndex)
            (0 : ℚ) = activeFramesSum frames exclude start freqIndex) := by
  have hsorted := List.sorted_insertionSort timeLE (calculateChanges start endT frames exclude)
  have hperm := List.perm_insertionSort timeLE (calculateChanges start endT frames exclude)
  have hp : ∀ a b : SignalChange, timeLE a b → decide (b.time ≤ start) = true →
      decide (a.time ≤ start) = true :=
    fun a b hab hb => decide_eq_true (le_trans hab (of_decide_eq_true hb))
  have htake := takeWhile_eq_filter_of_sorted (fun c => decide (c.time ≤ start)) _
    (fun a _ b _ hab hb => hp a b hab hb) hsorted
  have hfperm := hperm.filter (fun c => decide (c.time ≤ start))
  refine ⟨?_, ?_, ?_⟩
  · intro c hc hct
    have hc' : c ∈ calculateChanges start endT frames exclude := hperm.mem_iff.mp hc
    obtain ⟨f, hf, hcf⟩ := List.mem_flatMap.mp hc'
    by_cases hex : sameObject f exclude
    · rw [if_pos hex] at hcf
      exact absurd hcf (List.not_mem_nil c)
    · rw [if_neg hex] at hcf
      rcases (changesOfFrame_mem hcf).2 with ⟨hty, _⟩ | ⟨_, htime, hgt⟩
      · exact hty
      · exact absurd (htime ▸ hct) (not_le.mpr hgt)
  · intro spectrum j
    unfold sortChanges
    rw [htake, perm_foldl _ (fun b a a' => Signal.add_add_comm b a.signal a'.signal) hfperm,
      foldl_add_signal_values]
    show 0 + _ = _
    rw [zero_add]
    exact preroll_sum_eq start endT exclude j frames hnd hse
  · intro freqIndex
    unfold sortChanges
    rw [htake, perm_foldl _ (fun (b : ℚ) (a a' : SignalChange) => by ring) hfperm,
      foldl_add_at, zero_add]
    exact preroll_sum_eq start endT exclude freqIndex frames hnd hse

/-- Witness for C5 at a concrete input: two active signals of powers 5 and 7
at instant 3 inside the window `[3, 8]`. -/
theorem preroll_no_endings_and_active_sum_witness :
    (∀ f ∈ [constFrame 1 1 5 0 10, constFrame 2 2 7 2 6],
        f.signal.receptionStart < f.signal.receptionEnd) ∧ (3 : ℚ) ≤ 8 ∧
      (((sortChanges (calculateChanges 3 8 [constFrame 1 1 5 0 10, constFrame 2 2 7 2 6]
          none)).takeWhile fun c => decide (c.time ≤ 3)).foldl (fun acc c => acc + c.signal)
          (Signal.ofSpectrum 1)).values 0 =
        activeFramesSum [constFrame 1 1 5 0 10, constFrame 2 2 7 2 6] none 3 0 ∧
      activeFramesSum [constFrame 1 1 5 0 10, constFrame 2 2 7 2 6] none 3 0 = 12 :=
  ⟨by with_unfolding_all decide, by with_unfolding_all decide,
    (preroll_no_endings_and_active_sum 3 8 [constFrame 1 1 5 0 10, constFrame 2 2 7 2 6] none
      (by with_unfolding_all decide) (by with_unfolding_all decide)).2.1 1 0,
    by with_unfolding_all decide⟩

/-! ## C6: simultaneous events are aggregated before evaluation -/

/-- Processing one maximal block of equal-timestamp events: all of them are
applied to the accumulator, then (at the boundary) the extremum is folded
once. -/
theorem sweepLoop_block {σ : Type} (apply : σ → SignalChange → σ) (eval : σ → ℚ)
    (better : ℚ → ℚ → ℚ) (t : ℚ) :
    ∀ (block rest : List SignalChange) (acc : σ) (m : ℚ), block ≠ [] →
      (∀ c ∈ block, c.time = t) → (∀ c ∈ rest, t < c.time) →
      sweepLoop apply eval better (block ++ rest) acc m =
        sweepLoop apply eval better rest (block.foldl apply acc)
          (better m (eval (block.foldl apply acc))) := by
  intro block
  induction block with
  | nil => intro rest acc m hne _ _; exact absurd rfl hne
  | cons c bl ih =>
    intro rest acc m _ hbt hrt
    cases bl with
    | nil =>
      cases rest with
      | nil => rfl
      | cons r rs =>
        show (if c.time = r.time then _ else _) = _
        rw [if_neg]
        · rfl
        · intro he
          have h1 := hrt r (List.mem_cons_self r rs)
          have h2 := hbt c (List.mem_cons_self c [])
          rw [← he, h2] at h1
          exact lt_irrefl t h1
    | cons c2 bl2 =>
      show (if c.time = c2.time then _ else _) = _
      rw [if_pos (by
        rw [hbt c (List.mem_cons_self c _), hbt c2 (List.mem_cons_of_mem c
          (List.mem_cons_self c2 bl2))])]
      exact ih rest (apply acc c) m (by simp)
        (fun d hd => hbt d (List.mem_cons_of_mem c hd)) hrt

/-- The chunk loop is invariant under permuting events that share a timestamp:
any two `timeLE`-sorted permutations of the event list produce the same
result, provided applying two events to the accumulator commutes. -/
theorem sweepLoop_sorted_perm {σ : Type} (apply : σ → SignalChange → σ) (eval : σ → ℚ)
    (better : ℚ → ℚ → ℚ)
    (hcomm : ∀ acc c d, apply (apply acc c) d = apply (apply acc d) c) :
    ∀ (n : Nat) (l1 l2 : List SignalChange), l1.length ≤ n → l1.Perm l2 →
      l1.Sorted timeLE → l2.Sorted timeLE → ∀ (acc : σ) (m : ℚ),
      sweepLoop apply eval better l1 acc m = sweepLoop apply eval better l2 acc m := by
  intro n
  induction n with
  | zero =>
    intro l1 l2 hlen hperm _ _ acc m
    have h1 : l1 = [] := List.eq_nil_of_length_eq_zero (Nat.le_zero.mp hlen)
    have h2 : l2 = [] := List.eq_nil_of_length_eq_zero (by
      rw [← hperm.length_eq, h1]; rfl)
    rw [h1, h2]
  | succ k ih =>
    intro l1 l2 hlen hperm hs1 hs2 acc m
    cases l1 with
    | nil =>
      have h2 : l2 = [] := List.eq_nil_of_length_eq_zero (by rw [← hperm.length_eq]; rfl)
      rw [h2]
    | cons c1 t1 =>
      cases l2 with
      | nil => exact absurd hperm.length_eq (by simp)
      | cons c2 t2 =>
        have hm1 : ∀ a ∈ c1 :: t1, c1.time ≤ a.time := by
          intro a ha
          rcases List.mem_cons.mp ha with rfl | ha
          · exact le_refl _
          · exact (List.sorted_cons.mp hs1).1 a ha
        have hm2 : ∀ a ∈ c2 :: t2, c2.time ≤ a.time := by
          intro a ha
          rcases List.mem_cons.mp ha with rfl | ha
          · exact le_refl _
          · exact (List.sorted_cons.mp hs2).1 a ha
        have h21 : c2.time = c1.time :=
          le_antisymm (hm2 c1 (hperm.mem_iff.mp (List.mem_cons_self c1 t1)))
            (hm1 c2 (hperm.mem_iff.mpr (List.mem_cons_self c2 t2)))
        have hp1 : ∀ a ∈ c1 :: t1, ∀ b ∈ c1 :: t1, timeLE a b →
            decide (b.time = c1.time) = true → decide (a.time = c1.time) = true := by
          intro a ha b _ hab hb
          exact decide_eq_true (le_antisymm ((of_decide_eq_true hb) ▸ hab) (hm1 a ha))
        have hp2 : ∀ a ∈ c2 :: t2, ∀ b ∈ c2 :: t2, timeLE a b →
            decide (b.time = c1.time) = true → decide (a.time = c1.time) = true := by
          intro a ha b _ hab hb
          exact decide_eq_true (le_antisymm ((of_decide_eq_true hb) ▸ hab) (h21 ▸ hm2 a ha))
        have htf1 := takeWhile_eq_filter_of_sorted (fun c => decide (c.time = c1.time))
          (c1 :: t1) hp1 hs1
        have hdf1 := dropWhile_eq_filter_of_sorted (fun c => decide (c.time = c1.time))
          (c1 :: t1) hp1 hs1
        have htf2 := takeWhile_eq_filter_of_sorted (fun c => decide (c.time = c1.time))
          (c2 :: t2) hp2 hs2
        have hdf2 := dropWhile_eq_filter_of_sorted (fun c => decide (c.time = c1.time))
          (c2 :: t2) hp2 hs2
        have hblock1 : (c1 :: t1).takeWhile (fun c => decide (c.time = c1.time)) ≠ [] := by
          rw [List.takeWhile_cons]
          simp
        have hblock2 : (c2 :: t2).takeWhile (fun c => decide (c.time = c1.time)) ≠ [] := by
          rw [List.takeWhile_cons]
          simp [h21]
        have hbt1 : ∀ c ∈ (c1 :: t1).takeWhile (fun c => decide (c.time = c1.time)),
            c.time = c1.time := by
          intro c hc
          have h := List.mem_takeWhile_imp hc
          exact of_decide_eq_true h
        have hbt2 : ∀ c ∈ (c2 :: t2).takeWhile (fun c => decide (c.time = c1.time)),
            c.time = c1.time := by
          intro c hc
          have h := List.mem_takeWhile_imp hc
          exact of_decide_eq_true h
        have hrt1 : ∀ c ∈ (c1 :: t1).dropWhile (fun c => decide (c.time = c1.time)),
            c1.time < c.time := by
          intro c hc
          rw [hdf1] at hc
          obtain ⟨hmem, hne⟩ := List.mem_filter.mp hc
          exact lt_of_le_of_ne (hm1 c hmem) fun he => by simp [he.symm] at hne
        have hrt2 : ∀ c ∈ (c2 :: t2).dropWhile (fun c => decide (c.time = c1.time)),
            c1.time < c.time := by
          intro c hc
          rw [hdf2] at hc
          obtain ⟨hmem, hne⟩ := List.mem_filter.mp hc
          exact lt_of_le_of_ne (h21 ▸ hm2 c hmem) fun he => by simp [he.symm] at hne
        have hbperm : ((c1 :: t1).takeWhile (fun c => decide (c.time = c1.time))).Perm
            ((c2 :: t2).takeWhile (fun c => decide (c.time = c1.time))) := by
          rw [htf1, htf2]
          exact hperm.filter _
        have hrperm : ((c1 :: t1).dropWhile (fun c => decide (c.time = c1.time))).Perm
            ((c2 :: t2).dropWhile (fun c => decide (c.time = c1.time))) := by
          rw [hdf1, hdf2]
          exact hperm.filter _
        have hfold : ((c1 :: t1).takeWhile (fun c => decide (c.time = c1.time))).foldl apply acc =
            ((c2 :: t2).takeWhile (fun c => decide (c.time = c1.time))).foldl apply acc :=
          perm_foldl apply hcomm hbperm acc
        calc sweepLoop apply eval better (c1 :: t1) acc m
            = sweepLoop apply eval better
                ((c1 :: t1).takeWhile (fun c => decide (c.time = c1.time)) ++
                  (c1 :: t1).dropWhile (fun c => decide (c.time = c1.time))) acc m := by
              rw [List.takeWhile_append_dropWhile]
          _ = sweepLoop apply eval better
                ((c1 :: t1).dropWhile (fun c => decide (c.time = c1.time)))
                (((c1 :: t1).takeWhile (fun c => decide (c.time = c1.time))).foldl apply acc)
                (better m (eval (((c1 :: t1).takeWhile
                  (fun c => decide (c.time = c1.time))).foldl apply acc))) :=
              sweepLoop_block apply eval better c1.time _ _ acc m hblock1 hbt1 hrt1
          _ = sweepLoop apply eval better
                ((c2 :: t2).dropWhile (fun c => decide (c.time = c1.time)))
                (((c2 :: t2).takeWhile (fun c => decide (c.time = c1.time))).foldl apply acc)
                (better m (eval (((c2 :: t2).takeWhile
                  (fun c => decide (c.time = c1.time))).foldl apply acc))) := by
              rw [hfold]
              apply ih
              · have hsplit := congrArg List.length
                  (List.takeWhile_append_dropWhile (fun c => decide (c.time = c1.time)) (c1 :: t1))
                rw [List.length_append] at hsplit
                have hpos : 0 < ((c1 :: t1).takeWhile
                    (fun c => decide (c.time = c1.time))).length :=
                  List.length_pos.mpr hblock1
                have hl : (c1 :: t1).length ≤ k + 1 := hlen
                simp only [List.length_cons] at hsplit hl
                omega
              · exact hrperm
              · exact List.Pairwise.sublist (List.dropWhile_sublist _) hs1
              · exact List.Pairwise.sublist (List.dropWhile_sublist _) hs2
          _ = sweepLoop apply eval better (c2 :: t2) acc m := by
              rw [← sweepLoop_block apply eval better c1.time _ _ acc m hblock2 hbt2 hrt2,
                List.takeWhile_append_dropWhile]

/-- The full post-sort phase (empty check, pre-roll, seeding, chunk loop) is
invariant under permutations of events sharing a timestamp. -/
theorem processChanges_sorted_perm {σ : Type} (start : ℚ) (init : σ)
    (addSig apply : σ → SignalChange → σ) (eval : σ → ℚ) (better : ℚ → ℚ → ℚ)
    (haddcomm : ∀ acc c d, addSig (addSig acc c) d = addSig (addSig acc d) c)
    (hcomm : ∀ acc c d, apply (apply acc c) d = apply (apply acc d) c)
    (l1 l2 : List SignalChange) (hperm : l1.Perm l2) (hs1 : l1.Sorted timeLE)
    (hs2 : l2.Sorted timeLE) :
    processChanges start l1 init addSig apply eval better =
      processChanges start l2 init addSig apply eval better := by
  simp only [processChanges]
  by_cases hemp : l1 = []
  · subst hemp
    have h2 : l2 = [] := List.eq_nil_of_length_eq_zero (by rw [← hperm.length_eq]; rfl)
    subst h2
    rfl
  · have h2 : l2 ≠ [] := fun h =>
      hemp (List.eq_nil_of_length_eq_zero (by rw [hperm.length_eq, h]; rfl))
    rw [if_neg (by simp [hemp]), if_neg (by simp [h2])]
    have hp1 : ∀ a ∈ l1, ∀ b ∈ l1, timeLE a b → decide (b.time ≤ start) = true →
        decide (a.time ≤ start) = true :=
      fun a _ b _ hab hb => decide_eq_true (le_trans hab (of_decide_eq_true hb))
    have hp2 : ∀ a ∈ l2, ∀ b ∈ l2, timeLE a b → decide (b.time ≤ start) = true →
        decide (a.time ≤ start) = true :=
      fun a _ b _ hab hb => decide_eq_true (le_trans hab (of_decide_eq_true hb))
    have htf1 := takeWhile_eq_filter_of_sorted (fun c => decide (c.time ≤ start)) l1 hp1 hs1
    have hdf1 := dropWhile_eq_filter_of_sorted (fun c => decide (c.time ≤ start)) l1 hp1 hs1
    have htf2 := takeWhile_eq_filter_of_sorted (fun c => decide (c.time ≤ start)) l2 hp2 hs2
    have hdf2 := dropWhile_eq_filter_of_sorted (fun c => decide (c.time ≤ start)) l2 hp2 hs2
    have haccperm : (l1.takeWhile fun c => decide (c.time ≤ start)).Perm
        (l2.takeWhile fun c => decide (c.time ≤ start)) := by
      rw [htf1, htf2]
      exact hperm.filter _
    have hacc := perm_foldl addSig haddcomm haccperm init
    have hrperm : (l1.dropWhile fun c => decide (c.time ≤ start)).Perm
        (l2.dropWhile fun c => decide (c.time ≤ start)) := by
      rw [hdf1, hdf2]
      exact hperm.filter _
    rw [hacc]
    exact sweepLoop_sorted_perm apply eval better hcomm
      (l1.dropWhile fun c => decide (c.time ≤ start)).length _ _ (le_refl _) hrperm
      (List.Pairwise.sublist (List.dropWhile_sublist _) hs1)
      (List.Pairwise.sublist (List.dropWhile_sublist _) hs2) _ _

/-- C6: the results of `getGlobalMax`, `getGlobalMin` and `getMinAtFreqIndex`
are invariant under any permutation of events sharing the same timestamp: any
two `timeLE`-sorted permutations of the same event list (which is exactly the
freedom `std::sort` has under the strict `compareByTime`) give the same
result, because same-timestamp events are all applied to the accumulator
before the extremum is evaluated, and the extremum is evaluated only where
the next event has a strictly greater time or no event follows. -/
theorem sameTimestamp_perm_invariant (start : ℚ) (spectrum freqIndex : Nat)
    (l1 l2 : List SignalChange) (hperm : l1.Perm l2) (hs1 : l1.Sorted timeLE)
    (hs2 : l2.Sorted timeLE) :
    globalMaxProcess start spectrum l1 = globalMaxProcess start spectrum l2 ∧
      globalMinProcess start spectrum l1 = globalMinProcess start spectrum l2 ∧
      minAtFreqProcess start freqIndex l1 = minAtFreqProcess start freqIndex l2 :=
  ⟨processChanges_sorted_perm start (Signal.ofSpectrum spectrum) _ _ Signal.getMax _
      (fun acc c d => Signal.add_add_comm acc c.signal d.signal)
      applyChange_right_comm l1 l2 hperm hs1 hs2,
    processChanges_sorted_perm start (Signal.ofSpectrum spectrum) _ _ Signal.getDataMin _
      (fun acc c d => Signal.add_add_comm acc c.signal d.signal)
      applyChange_right_comm l1 l2 hperm hs1 hs2,
    processChanges_sorted_perm start (0 : ℚ) _ _ id _
      (fun acc c d => by ring)
      (applyChangeAt_right_comm freqIndex) l1 l2 hperm hs1 hs2⟩

/-- Witness for C6 at a concrete input: two Starting events at the same
timestamp, in both orders. -/
theorem sameTimestamp_perm_invariant_witness :
    globalMaxProcess 0 1
        [⟨constSignal 5 0 1 0 10, ChangeType.starting, 1⟩,
          ⟨constSignal 7 0 1 2 6, ChangeType.starting, 1⟩] =
      globalMaxProcess 0 1
        [⟨constSignal 7 0 1 2 6, ChangeType.starting, 1⟩,
          ⟨constSignal 5 0 1 0 10, ChangeType.starting, 1⟩] ∧
      globalMinProcess 0 1
          [⟨constSignal 5 0 1 0 10, ChangeType.starting, 1⟩,
            ⟨constSignal 7 0 1 2 6, ChangeType.starting, 1⟩] =
        globalMinProcess 0 1
          [⟨constSignal 7 0 1 2 6, ChangeType.starting, 1⟩,
            ⟨constSignal 5 0 1 0 10, ChangeType.starting, 1⟩] ∧
      minAtFreqProcess 0 0
          [⟨constSignal 5 0 1 0 10, ChangeType.starting, 1⟩,
            ⟨constSignal 7 0 1 2 6, ChangeType.starting, 1⟩] =
        minAtFreqProcess 0 0
          [⟨constSignal 7 0 1 2 6, ChangeType.starting, 1⟩,
            ⟨constSignal 5 0 1 0 10, ChangeType.starting, 1⟩] :=
  sameTimestamp_perm_invariant 0 1 0
    [⟨constSignal 5 0 1 0 10, ChangeType.starting, 1⟩,
      ⟨constSignal 7 0 1 2 6, ChangeType.starting, 1⟩]
    [⟨constSignal 7 0 1 2 6, ChangeType.starting, 1⟩,
      ⟨constSignal 5 0 1 0 10, ChangeType.starting, 1⟩]
    (List.Perm.swap (⟨constSignal 7 0 1 2 6, ChangeType.starting, 1⟩ : SignalChange)
      (⟨constSignal 5 0 1 0 10, ChangeType.starting, 1⟩ : SignalChange) [])
    (by simp [List.sorted_cons, timeLE])
    (by simp [List.sorted_cons, timeLE])

/-! ## C3: which identity governs exclusion -/

/-- `getMaxInterference`'s loop skips exactly the frames sharing the
reference's transport identity. -/
theorem gmiLoop_filter_treeId (endT : ℚ) (refTreeId : Nat) (start : ℚ) :
    ∀ (frames : List AirFrame) (st : GmiState),
      gmiLoop endT refTreeId start frames st =
        gmiLoop endT refTreeId start (frames.filter fun f => decide (f.treeId ≠ refTreeId)) st := by
  intro frames
  induction frames with
  | nil => intro st; rfl
  | cons f t ih =>
    intro st
    rw [List.filter_cons]
    by_cases h : f.treeId = refTreeId
    · rw [if_neg (by simp [h])]
      show (if f.treeId = refTreeId then _ else _) = _
      rw [if_pos h]
      exact ih st
    · rw [if_pos (by simp [h])]
      show (if f.treeId = refTreeId then _ else _) = (if f.treeId = refTreeId then _ else _)
      rw [if_neg h, if_neg h]
      by_cases h2 : f.signal.receptionEnd ≤ start ∨ f.signal.receptionStart > endT
      · rw [if_pos h2, if_pos h2]
        exact ih st
      · rw [if_neg h2, if_neg h2]
        by_cases h3 : f.signal.receptionStart ≥ endT
        · rw [if_pos h3, if_pos h3]
        · rw [if_neg h3, if_neg h3]
          exact ih _

/-- `calculateChanges` skips exactly the frames pointer-equal to `exclude`. -/
theorem calculateChanges_filter_exclude (start endT : ℚ) (e : AirFrame) :
    ∀ frames : List AirFrame,
      calculateChanges start endT frames (some e) =
        calculateChanges start endT (frames.filter fun f => decide (f.objId ≠ e.objId))
          (some e) := by
  intro frames
  induction frames with
  | nil => rfl
  | cons f t ih =>
    unfold calculateChanges at ih ⊢
    rw [List.filter_cons, List.flatMap_cons]
    by_cases h : f.objId = e.objId
    · rw [if_pos (show sameObject f (some e) = true by simp [sameObject, h]),
        if_neg (by simp [h]), List.nil_append, ih]
    · rw [if_pos (show decide (f.objId ≠ e.objId) = true by simp [h]), List.flatMap_cons, ih]

/-- `getMinAtFreqIndex` is unchanged when the frames pointer-equal to the
excluded frame are removed from the collection. -/
theorem getMinAtFreqIndex_exclude_filter (start endT : ℚ) (freqIndex : Nat) (e : AirFrame)
    (frames : List AirFrame) :
    getMinAtFreqIndex start endT frames freqIndex (some e) =
      getMinAtFreqIndex start endT (frames.filter fun f => decide (f.objId ≠ e.objId))
        freqIndex (some e) := by
  cases hfr : frames with
  | nil => rfl
  | cons f0 t =>
    cases hfil : (f0 :: t).filter fun f => decide (f.objId ≠ e.objId) with
    | nil =>
      show minAtFreqProcess start freqIndex
          (sortChanges (calculateChanges start endT (f0 :: t) (some e))) = 0
      rw [calculateChanges_filter_exclude, hfil]
      rfl
    | cons g0 t2 =>
      show minAtFreqProcess start freqIndex
          (sortChanges (calculateChanges start endT (f0 :: t) (some e))) =
        minAtFreqProcess start freqIndex
          (sortChanges (calculateChanges start endT (g0 :: t2) (some e)))
      rw [calculateChanges_filter_exclude, hfil]

theorem filter_objId_map_stage (e : AirFrame) (g : AirFrame → AirFrame)
    (hg : ∀ f, (g f).objId = f.objId) :
    ∀ l : List AirFrame,
      (l.map g).filter (fun f => decide (f.objId ≠ e.objId)) =
        (l.filter fun f => decide (f.objId ≠ e.objId)).map g := by
  intro l
  induction l with
  | nil => rfl
  | cons f t ihl =>
    rw [List.map_cons, List.filter_cons, List.filter_cons]
    by_cases h : f.objId = e.objId
    · rw [if_neg (by simp [hg, h]), if_neg (by simp [h]), ihl]
    · rw [if_pos (show decide ((g f).objId ≠ e.objId) = true by simp [hg, h]),
        if_pos (show decide (f.objId ≠ e.objId) = true by simp [h]), List.map_cons, ihl]

theorem filter_isInterferer_filter_objId (now : ℚ) (e : AirFrame) (l : List AirFrame) :
    (l.filter fun f => decide (f.objId ≠ e.objId)).filter (isInterferer now (some e)) =
      l.filter (isInterferer now (some e)) := by
  rw [List.filter_comm]
  apply List.filter_eq_self.mpr
  intro f hf
  have hi := (List.mem_filter.mp hf).2
  simp only [isInterferer, sameObject, Bool.and_eq_true, Bool.not_eq_true'] at hi
  exact decide_eq_true (of_decide_eq_false hi.2)

theorem applyStagesLoop_filter (now : ℚ) (freqIndex : Nat) (threshold : ℚ) (e : AirFrame) :
    ∀ (fuel idx : Nat) (frames : List AirFrame),
      (applyStagesLoop now freqIndex threshold (some e) fuel idx frames).1 =
        (applyStagesLoop now freqIndex threshold (some e) fuel idx
          (frames.filter fun f => decide (f.objId ≠ e.objId))).1 := by
  intro fuel
  induction fuel with
  | zero => intro idx frames; rfl
  | succ k ih =>
    intro idx frames
    simp only [applyStagesLoop]
    have hmap := filter_objId_map_stage e
      (fun f => if isInterferer now (some e) f then
        { f with signal := f.signal.applyAnalogueModel idx } else f)
      (fun f => by dsimp only; split <;> rfl) frames
    rw [← hmap, filter_isInterferer_filter_objId]
    by_cases hc : powerLevelSumAtFrequencyIndex
        (((frames.map fun f => if isInterferer now (some e) f then
          { f with signal := f.signal.applyAnalogueModel idx } else f).filter
          (isInterferer now (some e))).map (·.signal)) freqIndex < threshold
    · rw [if_pos hc, if_pos hc]
    · rw [if_neg hc, if_neg hc]
      exact ih (idx + 1) _

/-- The boolean of `isChannelPowerBelowThreshold` is unchanged when the frames
pointer-equal to the excluded frame are removed, provided the threshold is
positive and all frames carry the same attenuation-stage count. -/
theorem isChannelPowerBelowThreshold_exclude_filter (now : ℚ) (freqIndex : Nat)
    (threshold : ℚ) (e : AirFrame) (frames : List AirFrame) (c : Nat) (hth : 0 < threshold)
    (hcnt : ∀ f ∈ frames, f.signal.analogueModels.length = c) :
    (isChannelPowerBelowThreshold now frames freqIndex threshold (some e)).1 =
      (isChannelPowerBelowThreshold now (frames.filter fun f => decide (f.objId ≠ e.objId))
        freqIndex threshold (some e)).1 := by
  cases hfr : frames with
  | nil => rfl
  | cons f0 t =>
    cases hfil : (f0 :: t).filter fun f => decide (f.objId ≠ e.objId) with
    | nil =>
      have hint : (f0 :: t).filter (isInterferer now (some e)) = [] := by
        rw [← filter_isInterferer_filter_objId now e, hfil]
        rfl
      simp only [isChannelPowerBelowThreshold]
      rw [hint]
      simp only [List.map_nil]
      rw [if_pos (show powerLevelSumAtFrequencyIndex [] freqIndex < threshold from hth)]
    | cons g0 t2 =>
      simp only [isChannelPowerBelowThreshold]
      have hint : (g0 :: t2).filter (isInterferer now (some e)) =
          (f0 :: t).filter (isInterferer now (some e)) := by
        rw [← hfil, filter_isInterferer_filter_objId]
      rw [hint]
      by_cases hc : powerLevelSumAtFrequencyIndex
          (((f0 :: t).filter (isInterferer now (some e))).map (·.signal)) freqIndex < threshold
      · rw [if_pos hc, if_pos hc]
      · rw [if_neg hc, if_neg hc]
        have hc0 : f0.signal.analogueModels.length = c :=
          hcnt f0 (hfr ▸ List.mem_cons_self f0 t)
        have hg0 : g0.signal.analogueModels.length = c := by
          have : g0 ∈ (f0 :: t).filter fun f => decide (f.objId ≠ e.objId) := by
            rw [hfil]; exact List.mem_cons_self g0 t2
          exact hcnt g0 (hfr ▸ (List.mem_filter.mp this).1)
        rw [hc0, hg0, ← hfil]
        exact applyStagesLoop_filter now freqIndex threshold e c 0 (f0 :: t)

/-- Counterexample to C3 as stated: for `getMinAtFreqIndex`, a frame that is a
*distinct object* with the *same transport identity and signal data* as the
excluded frame is not skipped (exclusion is by pointer), so it does
contribute: with it the minimum is 5, without it the collection is empty and
the result is 0. -/
theorem excludedFrame_identity_cx :
    (constFrame 1 1 5 0 10).treeId = (constFrame 1 0 5 0 10).treeId ∧
      (constFrame 1 1 5 0 10).objId ≠ (constFrame 1 0 5 0 10).objId ∧
      getMinAtFreqIndex 0 5 [constFrame 1 1 5 0 10] 0 (some (constFrame 1 0 5 0 10)) = 5 ∧
      getMinAtFreqIndex 0 5 [] 0 (some (constFrame 1 0 5 0 10)) = 0 := by
  with_unfolding_all decide

/-- C3 as amended: `getMaxInterference` excludes by transport identity
(`treeId`) -- every frame sharing the reference's `treeId` contributes
nothing, its removal leaves the result unchanged -- while `getMinAtFreqIndex`
and `isChannelPowerBelowThreshold` exclude by object identity: removing the
frames pointer-equal to the excluded frame leaves their results unchanged
(for the threshold test: its boolean, given a positive threshold and a
uniform stage count), but a distinct frame object carrying the same identity
and signal data does contribute (see the counterexample). -/
theorem excluded_identity_semantics (start endT now : ℚ) (freqIndex : Nat) (threshold : ℚ)
    (ref e : AirFrame) (frames : List AirFrame) (c : Nat) (hth : 0 < threshold)
    (hcnt : ∀ f ∈ frames, f.signal.analogueModels.length = c) :
    getMaxInterference start endT ref frames =
        getMaxInterference start endT ref
          (frames.filter fun f => decide (f.treeId ≠ ref.treeId)) ∧
      getMinAtFreqIndex start endT frames freqIndex (some e) =
        getMinAtFreqIndex start endT (frames.filter fun f => decide (f.objId ≠ e.objId))
          freqIndex (some e) ∧
      (isChannelPowerBelowThreshold now frames freqIndex threshold (some e)).1 =
        (isChannelPowerBelowThreshold now
          (frames.filter fun f => decide (f.objId ≠ e.objId)) freqIndex threshold (some e)).1 :=
  ⟨gmiLoop_filter_treeId endT ref.treeId start frames _,
    getMinAtFreqIndex_exclude_filter start endT freqIndex e frames,
    isChannelPowerBelowThreshold_exclude_filter now freqIndex threshold e frames c hth hcnt⟩

/-- Witness for the amended C3 at a concrete input (threshold 1, stage count
0, one duplicate-identity interferer). -/
theorem excluded_identity_semantics_witness :
    (0 : ℚ) < 1 ∧
      getMaxInterference 0 5 (constFrame 1 0 5 0 10) [constFrame 1 1 5 0 10] =
        getMaxInterference 0 5 (constFrame 1 0 5 0 10)
          ([constFrame 1 1 5 0 10].filter fun f => decide (f.treeId ≠ (constFrame 1 0 5 0 10).treeId)) ∧
      getMinAtFreqIndex 0 5 [constFrame 1 1 5 0 10] 0 (some (constFrame 1 0 5 0 10)) =
        getMinAtFreqIndex 0 5
          ([constFrame 1 1 5 0 10].filter fun f => decide (f.objId ≠ (constFrame 1 0 5 0 10).objId))
          0 (some (constFrame 1 0 5 0 10)) ∧
      (isChannelPowerBelowThreshold 2 [constFrame 1 1 5 0 10] 0 1
          (some (constFrame 1 0 5 0 10))).1 =
        (isChannelPowerBelowThreshold 2
          ([constFrame 1 1 5 0 10].filter fun f => decide (f.objId ≠ (constFrame 1 0 5 0 10).objId))
          0 1 (some (constFrame 1 0 5 0 10))).1 :=
  ⟨by with_unfolding_all decide,
    excluded_identity_semantics 0 5 2 0 1 (constFrame 1 0 5 0 10) (constFrame 1 0 5 0 10)
      [constFrame 1 1 5 0 10] 0 (by with_unfolding_all decide)
      (by with_unfolding_all decide)⟩

/-! ## C1: the maximum-interference envelope -/

theorem pqPush_perm (s : Signal) : ∀ q : List Signal, (pqPush s q).Perm (s :: q) := by
  intro q
  induction q with
  | nil => exact List.Perm.refl _
  | cons t rest ih =>
    unfold pqPush
    split_ifs
    · exact List.Perm.refl _
    · exact (List.Perm.cons t ih).trans (List.Perm.swap s t rest)

theorem pqPush_sorted (s : Signal) :
    ∀ q : List Signal, q.Pairwise (fun a b => a.receptionEnd ≤ b.receptionEnd) →
      (pqPush s q).Pairwise (fun a b => a.receptionEnd ≤ b.receptionEnd) := by
  intro q
  induction q with
  | nil => intro _; exact List.pairwise_singleton _ s
  | cons t rest ih =>
    intro hq
    obtain ⟨hhead, htail⟩ := List.pairwise_cons.mp hq
    unfold pqPush
    split_ifs with h
    · exact List.pairwise_cons.mpr ⟨fun b hb => by
        rcases List.mem_cons.mp hb with rfl | hb
        · exact h
        · exact le_trans h (hhead b hb), hq⟩
    · refine List.pairwise_cons.mpr ⟨?_, ih htail⟩
      intro b hb
      rcases List.mem_cons.mp ((pqPush_perm s rest).mem_iff.mp hb) with rfl | hb2
      · exact le_of_not_le h
      · exact hhead b hb2

theorem sum_filter_split {α : Type} (p : α → Bool) (v : α → ℚ) :
    ∀ l : List α, (l.map v).sum = ((l.filter p).map v).sum +
      ((l.filter fun a => !p a).map v).sum := by
  intro l
  induction l with
  | nil => simp
  | cons a t ih =>
    rw [List.map_cons, List.sum_cons]
    cases h : p a with
    | true =>
      rw [List.filter_cons_of_pos h, List.filter_cons_of_neg (by simp [h]), List.map_cons,
        List.sum_cons, ih]
      ring
    | false =>
      rw [List.filter_cons_of_neg (by simp [h]), List.filter_cons_of_pos (by simp [h]),
        List.map_cons, List.sum_cons, ih]
      ring

theorem sum_filter_le_of_imp {α : Type} (p q : α → Bool) (v : α → ℚ) :
    ∀ l : List α, (∀ a ∈ l, 0 ≤ v a) → (∀ a ∈ l, p a = true → q a = true) →
      ((l.filter p).map v).sum ≤ ((l.filter q).map v).sum := by
  intro l
  induction l with
  | nil => intro _ _; exact le_refl 0
  | cons a t ih =>
    intro hv himp
    have iht := ih (fun b hb => hv b (List.mem_cons_of_mem a hb))
      (fun b hb => himp b (List.mem_cons_of_mem a hb))
    rw [List.filter_cons, List.filter_cons]
    cases hp : p a with
    | true =>
      rw [if_pos rfl, if_pos (himp a (List.mem_cons_self a t) hp), List.map_cons,
        List.sum_cons, List.map_cons, List.sum_cons]
      exact add_le_add (le_refl _) iht
    | false =>
      rw [if_neg (by simp)]
      cases hq : q a with
      | true =>
        rw [if_pos rfl, List.map_cons, List.sum_cons]
        have := hv a (List.mem_cons_self a t)
        linarith
      | false =>
        rw [if_neg (by simp)]
        exact iht

/-- The eviction loop pops exactly the signals whose reception end is `≤ t`
(the queue being sorted by reception end), subtracting them from the running
total. -/
theorem popExpired_spec (t : ℚ) :
    ∀ (q : List Signal) (cur : Signal),
      q.Pairwise (fun a b => a.receptionEnd ≤ b.receptionEnd) →
      (popExpired q cur t).1 = q.filter (fun s => !decide (s.receptionEnd ≤ t)) ∧
        ∀ i, ((popExpired q cur t).2).values i =
          cur.values i - ((q.filter fun s => decide (s.receptionEnd ≤ t)).map
            (fun s => s.values i)).sum := by
  intro q
  induction q with
  | nil => intro cur _; exact ⟨rfl, fun i => by simp [popExpired]⟩
  | cons s rest ih =>
    intro cur hq
    obtain ⟨hhead, htail⟩ := List.pairwise_cons.mp hq
    unfold popExpired
    by_cases h : s.receptionEnd ≤ t
    · rw [if_pos h]
      obtain ⟨h1, h2⟩ := ih (cur - s) htail
      refine ⟨?_, ?_⟩
      · rw [h1, List.filter_cons_of_neg (by simp [h])]
      · intro i
        rw [h2 i, List.filter_cons_of_pos (by simp [h]), List.map_cons, List.sum_cons,
          Signal.sub_values]
        ring
    · rw [if_neg h]
      refine ⟨?_, ?_⟩
      · show s :: rest = (s :: rest).filter fun s => !decide (s.receptionEnd ≤ t)
        rw [List.filter_cons_of_pos (by simp [h])]
        congr 1
        symm
        apply List.filter_eq_self.mpr
        intro b hb
        simp only [Bool.not_eq_true', decide_eq_false_iff_not]
        intro hbt
        exact h (le_trans (hhead b hb) hbt)
      · intro i
        have : rest.filter (fun s => decide (s.receptionEnd ≤ t)) = [] := by
          apply filter_eq_nil_of_false
          intro b hb
          simp only [decide_eq_false_iff_not]
          intro hbt
          exact h (le_trans (hhead b hb) hbt)
        rw [List.filter_cons_of_neg (by simp [h]), this]
        simp

/-- The `getMaxInterference` loop, on frames passing every guard, replays
`gmiSpec`: the per-bin tracker accumulates the maximum of the active power
sums taken at each covering arrival instant. -/
theorem gmiLoop_spec (endT : ℚ) (refTreeId : Nat) (start : ℚ) (j : Nat) :
    ∀ (S Q : List AirFrame) (maxI cur : Signal) (q : List Signal) (t0 : ℚ),
      (∀ f ∈ S, f.treeId ≠ refTreeId ∧
        ¬(f.signal.receptionEnd ≤ start ∨ f.signal.receptionStart > endT) ∧
        f.signal.receptionStart < endT) →
      (∀ f ∈ S, f.signal.receptionStart < f.signal.receptionEnd) →
      (Q ++ S).Pairwise (fun a b => a.signal.receptionStart ≤ b.signal.receptionStart) →
      (∀ g ∈ Q, g.signal.receptionStart ≤ t0) →
      (∀ f ∈ S, t0 ≤ f.signal.receptionStart) →
      q.Perm ((Q.filter fun g => decide (t0 < g.signal.receptionEnd)).map (·.signal)) →
      q.Pairwise (fun a b => a.receptionEnd ≤ b.receptionEnd) →
      (∀ i, cur.values i = (q.map fun s => s.values i).sum) →
      (gmiLoop endT refTreeId start S ⟨maxI, cur, q, t0⟩).values j =
        gmiSpec j Q S (maxI.values j) := by
  intro S
  induction S with
  | nil => intro Q maxI cur q t0 _ _ _ _ _ _ _ _; rfl
  | cons f S' ih =>
    intro Q maxI cur q t0 hguard hnd hsort hQt hSt hqperm hqsort hcur
    obtain ⟨hg1, hg2, hg3⟩ := hguard f (List.mem_cons_self f S')
    have hndf : f.signal.receptionStart < f.signal.receptionEnd :=
      hnd f (List.mem_cons_self f S')
    have ht0t : t0 ≤ f.signal.receptionStart := hSt f (List.mem_cons_self f S')
    simp only [gmiLoop]
    rw [if_neg hg1, if_neg hg2, if_neg (not_le.mpr hg3)]
    have hq1perm := pqPush_perm f.signal q
    have hq1sort := pqPush_sorted f.signal q hqsort
    obtain ⟨hpop1, hpop2⟩ :=
      popExpired_spec f.signal.receptionStart (pqPush f.signal q) cur hq1sort
    have hnotconv : ∀ s : Signal,
        (!decide (s.receptionEnd ≤ f.signal.receptionStart)) =
          decide (f.signal.receptionStart < s.receptionEnd) := by
      intro s
      by_cases h : s.receptionEnd ≤ f.signal.receptionStart
      · simp [h, not_lt.mpr h]
      · simp [h, lt_of_not_le h]
    have hq2 : (popExpired (pqPush f.signal q) cur f.signal.receptionStart).1 =
        (pqPush f.signal q).filter
          fun s => decide (f.signal.receptionStart < s.receptionEnd) := by
      rw [hpop1]
      exact List.filter_congr fun s _ => hnotconv s
    -- the running total after pop and add, at every bin
    have hcur2 : ∀ i,
        ((popExpired (pqPush f.signal q) cur f.signal.receptionStart).2 + f.signal).values i =
          (((popExpired (pqPush f.signal q) cur f.signal.receptionStart).1).map
            fun s => s.values i).sum := by
      intro i
      rw [Signal.add_values, hpop2 i, hpop1]
      have hsum1 : ((pqPush f.signal q).map fun s => s.values i).sum =
          f.signal.values i + (q.map fun s => s.values i).sum := by
        rw [(hq1perm.map fun s => s.values i).sum_eq, List.map_cons, List.sum_cons]
      have hsplit := sum_filter_split
        (fun s => decide (s.receptionEnd ≤ f.signal.receptionStart))
        (fun s => s.values i) (pqPush f.signal q)
      rw [hcur i]
      linarith
    -- the queue after pop, as the active signals of Q ++ [f]
    have hq2perm : ((popExpired (pqPush f.signal q) cur f.signal.receptionStart).1).Perm
        (((Q ++ [f]).filter fun g =>
          decide (f.signal.receptionStart < g.signal.receptionEnd)).map (·.signal)) := by
      rw [hq2]
      have step1 : ((pqPush f.signal q).filter
          fun s => decide (f.signal.receptionStart < s.receptionEnd)).Perm
          ((f.signal :: q).filter
            fun s => decide (f.signal.receptionStart < s.receptionEnd)) :=
        hq1perm.filter _
      have hfkeep2 : (fun s : Signal =>
          decide (f.signal.receptionStart < s.receptionEnd)) f.signal = true :=
        decide_eq_true hndf
      have step2 : (f.signal :: q).filter
          (fun s => decide (f.signal.receptionStart < s.receptionEnd)) =
          f.signal :: q.filter (fun s => decide (f.signal.receptionStart < s.receptionEnd)) :=
        List.filter_cons_of_pos hfkeep2
      have step3 : (q.filter fun s => decide (f.signal.receptionStart < s.receptionEnd)).Perm
          ((((Q.filter fun g => decide (t0 < g.signal.receptionEnd)).map (·.signal)).filter
            fun s => decide (f.signal.receptionStart < s.receptionEnd))) :=
        hqperm.filter _
      have step4 : (((Q.filter fun g => decide (t0 < g.signal.receptionEnd)).map
          (·.signal)).filter fun s => decide (f.signal.receptionStart < s.receptionEnd)) =
          ((Q.filter fun g =>
            decide (f.signal.receptionStart < g.signal.receptionEnd)).map (·.signal)) := by
        rw [List.filter_map, List.filter_filter]
        congr 1
        apply List.filter_congr
        intro g _
        show ((fun s => decide (f.signal.receptionStart < s.receptionEnd)) g.signal &&
          decide (t0 < g.signal.receptionEnd)) = _
        by_cases h : f.signal.receptionStart < g.signal.receptionEnd
        · simp [h, lt_of_le_of_lt ht0t h]
        · simp [h]
      have step5 : ((Q ++ [f]).filter fun g =>
          decide (f.signal.receptionStart < g.signal.receptionEnd)) =
          (Q.filter fun g => decide (f.signal.receptionStart < g.signal.receptionEnd)) ++
            [f] := by
        rw [List.filter_append]
        congr 1
        simp [hndf]
      rw [step2] at step1
      refine step1.trans ?_
      rw [step5, List.map_append]
      refine (List.Perm.cons f.signal (step3.trans (by rw [step4]))).trans ?_
      exact (List.perm_append_singleton f.signal _).symm
    have hq2sort : ((popExpired (pqPush f.signal q) cur
        f.signal.receptionStart).1).Pairwise
        (fun a b => a.receptionEnd ≤ b.receptionEnd) := by
      rw [hpop1]
      exact List.Pairwise.filter _ hq1sort
    have hQt' : ∀ g ∈ Q ++ [f], g.signal.receptionStart ≤ f.signal.receptionStart := by
      intro g hg
      rcases List.mem_append.mp hg with hg | hg
      · exact le_trans (hQt g hg) ht0t
      · rcases List.mem_singleton.mp hg with rfl
        exact le_refl _
    have hSt' : ∀ f' ∈ S', f.signal.receptionStart ≤ f'.signal.receptionStart := by
      intro f' hf'
      have hsub : (f :: S').Pairwise
          (fun a b : AirFrame => a.signal.receptionStart ≤ b.signal.receptionStart) :=
        List.Pairwise.sublist (List.sublist_append_right Q (f :: S')) hsort
      exact (List.pairwise_cons.mp hsub).1 f' hf'
    have hsort' : ((Q ++ [f]) ++ S').Pairwise
        (fun a b : AirFrame => a.signal.receptionStart ≤ b.signal.receptionStart) := by
      rw [List.append_assoc]
      exact hsort
    -- the new running total equals the active sum at the arrival instant
    have hcurv : ((popExpired (pqPush f.signal q) cur f.signal.receptionStart).2 +
        f.signal).values j = activeSumAt (Q ++ [f]) f.signal.receptionStart j := by
      rw [hcur2 j]
      unfold activeSumAt
      have hfc : ((Q ++ [f]).filter fun g =>
          decide (g.signal.receptionStart ≤ f.signal.receptionStart) &&
            decide (f.signal.receptionStart < g.signal.receptionEnd)) =
          ((Q ++ [f]).filter fun g =>
            decide (f.signal.receptionStart < g.signal.receptionEnd)) := by
        apply List.filter_congr
        intro g hg
        simp [hQt' g hg]
      rw [hfc, (hq2perm.map fun s => s.values j).sum_eq, List.map_map]
      rfl
    rw [ih (Q ++ [f]) _ _ _ f.signal.receptionStart
      (fun g hg => hguard g (List.mem_cons_of_mem f hg))
      (fun g hg => hnd g (List.mem_cons_of_mem f hg))
      hsort' hQt' hSt' hq2perm hq2sort hcur2]
    show gmiSpec j (Q ++ [f]) S' _ = gmiSpec j Q (f :: S') (maxI.values j)
    simp only [gmiSpec]
    congr 1
    show (updateMaxInRange maxI _ f.signal.dataStart f.signal.dataEnd).values j = _
    unfold updateMaxInRange
    by_cases hr : f.signal.dataStart ≤ j ∧ j < f.signal.dataEnd
    · rw [if_pos hr]
      simp only
      rw [if_pos hr, hcurv]
    · rw [if_neg hr]
      simp only
      rw [if_neg hr]

theorem gmiKeep_iff (refTreeId : Nat) (start endT : ℚ) (f : AirFrame) :
    gmiKeep refTreeId start endT f = true ↔
      f.treeId ≠ refTreeId ∧
        ¬(f.signal.receptionEnd ≤ start ∨ f.signal.receptionStart > endT) ∧
        f.signal.receptionStart < endT := by
  simp [gmiKeep, not_or]
  tauto

/-- With a start-sorted collection, the early `break` of `getMaxInterference`
is equivalent to processing only the frames passing every guard. -/
theorem gmiLoop_eq_filtered (endT : ℚ) (refTreeId : Nat) (start : ℚ) :
    ∀ (frames : List AirFrame) (st : GmiState),
      frames.Pairwise (fun a b => a.signal.receptionStart ≤ b.signal.receptionStart) →
      gmiLoop endT refTreeId start frames st =
        gmiLoop endT refTreeId start (frames.filter (gmiKeep refTreeId start endT)) st := by
  intro frames
  induction frames with
  | nil => intro st _; rfl
  | cons f t ihf =>
    intro st hsort
    obtain ⟨hhead, htail⟩ := List.pairwise_cons.mp hsort
    rw [List.filter_cons]
    by_cases h1 : f.treeId = refTreeId
    · rw [if_neg (fun hgk => ((gmiKeep_iff refTreeId start endT f).mp hgk).1 h1)]
      show (if f.treeId = refTreeId then _ else _) = _
      rw [if_pos h1]
      exact ihf st htail
    · by_cases h2 : f.signal.receptionEnd ≤ start ∨ f.signal.receptionStart > endT
      · rw [if_neg (fun hgk => ((gmiKeep_iff refTreeId start endT f).mp hgk).2.1 h2)]
        show (if f.treeId = refTreeId then _ else _) = _
        rw [if_neg h1, if_pos h2]
        exact ihf st htail
      · by_cases h3 : f.signal.receptionStart ≥ endT
        · have hfil : t.filter (gmiKeep refTreeId start endT) = [] := by
            apply filter_eq_nil_of_false
            intro g hg
            cases hgk : gmiKeep refTreeId start endT g
            · rfl
            · exfalso
              have hlt := ((gmiKeep_iff refTreeId start endT g).mp hgk).2.2
              have hge := hhead g hg
              linarith
          rw [if_neg (fun hgk => absurd ((gmiKeep_iff refTreeId start endT f).mp hgk).2.2
            (not_lt.mpr h3)), hfil]
          show (if f.treeId = refTreeId then _ else _) = _
          rw [if_neg h1, if_neg h2, if_pos h3]
          rfl
        · rw [if_pos ((gmiKeep_iff refTreeId start endT f).mpr ⟨h1, h2, not_le.mp h3⟩)]
          show (if f.treeId = refTreeId then _ else _) = (if f.treeId = refTreeId then _ else _)
          rw [if_neg h1, if_neg h1, if_neg h2, if_neg h2, if_neg h3, if_neg h3]
          exact ihf _ htail

theorem gmiSpec_append (j : Nat) :
    ∀ (a b q : List AirFrame) (m : ℚ),
      gmiSpec j q (a ++ b) m = gmiSpec j (q ++ a) b (gmiSpec j q a m) := by
  intro a
  induction a with
  | nil => intro b q m; rw [List.nil_append, List.append_nil]; rfl
  | cons f a' iha =>
    intro b q m
    show gmiSpec j (q ++ [f]) (a' ++ b) _ = _
    rw [iha b (q ++ [f]) _, List.append_assoc]
    rfl

theorem gmiSpec_ge (j : Nat) :
    ∀ (s q : List AirFrame) (m : ℚ), m ≤ gmiSpec j q s m := by
  intro s
  induction s with
  | nil => intro q m; exact le_refl m
  | cons f s' ihs =>
    intro q m
    show m ≤ gmiSpec j (q ++ [f]) s' _
    refine le_trans ?_ (ihs (q ++ [f]) _)
    split_ifs
    · exact le_max_right _ _
    · exact le_refl m

theorem activeSumAt_append (l : List AirFrame) (f : AirFrame) (t : ℚ) (j : Nat) :
    activeSumAt (l ++ [f]) t j = activeSumAt l t j +
      (if f.signal.receptionStart ≤ t ∧ t < f.signal.receptionEnd
        then f.signal.values j else 0) := by
  unfold activeSumAt
  rw [List.filter_append, List.map_append, List.sum_append]
  congr 1
  rw [List.filter_cons]
  by_cases h : f.signal.receptionStart ≤ t ∧ t < f.signal.receptionEnd
  · rw [if_pos (by simp [h.1, h.2]), if_pos h]
    simp
  · rw [if_neg (by
      simp only [Bool.and_eq_true, decide_eq_true_eq]
      exact fun hc => h ⟨hc.1, hc.2⟩), if_neg h]
    simp

/-- Upper bound: on a start-sorted collection with nonnegative powers (zero
outside each populated range), the `gmiSpec` replay dominates the active
power sum at every instant. -/
theorem gmiSpec_ub (j : Nat) :
    ∀ P : List AirFrame,
      P.Pairwise (fun a b => a.signal.receptionStart ≤ b.signal.receptionStart) →
      (∀ f ∈ P, ∀ i, 0 ≤ f.signal.values i) →
      (∀ f ∈ P, ∀ i, i < f.signal.dataStart ∨ f.signal.dataEnd ≤ i →
        f.signal.values i = 0) →
      ∀ t, activeSumAt P t j ≤ gmiSpec j [] P 0 := by
  intro P
  induction P using List.reverseRecOn with
  | nil => intro _ _ _ t; exact le_refl 0
  | append_singleton P f ihp =>
    intro hsort hnneg hzero t
    have hsortP : P.Pairwise (fun a b => a.signal.receptionStart ≤ b.signal.receptionStart) :=
      List.Pairwise.sublist (List.sublist_append_left P [f]) hsort
    have ihp' := ihp hsortP
      (fun g hg => hnneg g (List.mem_append_left _ hg))
      (fun g hg => hzero g (List.mem_append_left _ hg))
    have hresmono : gmiSpec j [] P 0 ≤ gmiSpec j [] (P ++ [f]) 0 := by
      rw [gmiSpec_append j P [f] [] 0, List.nil_append]
      exact gmiSpec_ge j [f] P _
    have hres' : gmiSpec j [] (P ++ [f]) 0 =
        (if f.signal.dataStart ≤ j ∧ j < f.signal.dataEnd then
          max (activeSumAt (P ++ [f]) f.signal.receptionStart j) (gmiSpec j [] P 0)
        else gmiSpec j [] P 0) := by
      rw [gmiSpec_append j P [f] [] 0, List.nil_append]
      rfl
    rw [activeSumAt_append]
    by_cases hact : f.signal.receptionStart ≤ t ∧ t < f.signal.receptionEnd
    · rw [if_pos hact]
      by_cases hvz : f.signal.values j = 0
      · rw [hvz, add_zero]
        exact le_trans (ihp' t) hresmono
      · have hin : f.signal.dataStart ≤ j ∧ j < f.signal.dataEnd := by
          by_contra hnotin
          apply hvz
          apply hzero f (List.mem_append_right P (List.mem_singleton_self f)) j
          omega
        have hle : activeSumAt (P ++ [f]) t j ≤
            activeSumAt (P ++ [f]) f.signal.receptionStart j := by
          unfold activeSumAt
          apply sum_filter_le_of_imp
          · intro g hg
            exact hnneg g hg j
          · intro g hg hp
            simp only [Bool.and_eq_true, decide_eq_true_eq] at hp ⊢
            have hgs : g.signal.receptionStart ≤ f.signal.receptionStart := by
              rcases List.mem_append.mp hg with hg | hg
              · exact (List.pairwise_append.mp hsort).2.2 g hg f (List.mem_singleton_self f)
              · rcases List.mem_singleton.mp hg with rfl
                exact le_refl _
            exact ⟨hgs, lt_of_le_of_lt hact.1 hp.2⟩
        have hexp : activeSumAt (P ++ [f]) t j = activeSumAt P t j + f.signal.values j := by
          rw [activeSumAt_append, if_pos hact]
        rw [← hexp]
        refine le_trans hle ?_
        rw [hres', if_pos hin]
        exact le_max_left _ _
    · rw [if_neg hact, add_zero]
      exact le_trans (ihp' t) hresmono

/-- Attainment: the `gmiSpec` replay value is an active power sum realised at
some instant of the window. -/
theorem gmiSpec_attain (start endT : ℚ) (j : Nat) :
    ∀ P : List AirFrame,
      P.Pairwise (fun a b => a.signal.receptionStart ≤ b.signal.receptionStart) →
      (∀ f ∈ P, ∀ i, 0 ≤ f.signal.values i) →
      (∀ f ∈ P, ∀ i, i < f.signal.dataStart ∨ f.signal.dataEnd ≤ i →
        f.signal.values i = 0) →
      (∀ f ∈ P, start < f.signal.receptionEnd) →
      (∀ f ∈ P, f.signal.receptionStart < endT) →
      start ≤ endT →
      ∃ t, start ≤ t ∧ t ≤ endT ∧ activeSumAt P t j = gmiSpec j [] P 0 := by
  intro P
  induction P using List.reverseRecOn with
  | nil => intro _ _ _ _ _ hse; exact ⟨start, le_refl start, hse, rfl⟩
  | append_singleton P f ihp =>
    intro hsort hnneg hzero hre hrs hse
    have hmemf : f ∈ P ++ [f] := List.mem_append_right P (List.mem_singleton_self f)
    have hsortP : P.Pairwise (fun a b => a.signal.receptionStart ≤ b.signal.receptionStart) :=
      List.Pairwise.sublist (List.sublist_append_left P [f]) hsort
    obtain ⟨tw, htw1, htw2, htw3⟩ := ihp hsortP
      (fun g hg => hnneg g (List.mem_append_left _ hg))
      (fun g hg => hzero g (List.mem_append_left _ hg))
      (fun g hg => hre g (List.mem_append_left _ hg))
      (fun g hg => hrs g (List.mem_append_left _ hg)) hse
    have hres' : gmiSpec j [] (P ++ [f]) 0 =
        (if f.signal.dataStart ≤ j ∧ j < f.signal.dataEnd then
          max (activeSumAt (P ++ [f]) f.signal.receptionStart j) (gmiSpec j [] P 0)
        else gmiSpec j [] P 0) := by
      rw [gmiSpec_append j P [f] [] 0, List.nil_append]
      rfl
    by_cases hin : f.signal.dataStart ≤ j ∧ j < f.signal.dataEnd
    · by_cases hvm : activeSumAt (P ++ [f]) f.signal.receptionStart j ≤ gmiSpec j [] P 0
      · have hres : gmiSpec j [] (P ++ [f]) 0 = gmiSpec j [] P 0 := by
          rw [hres', if_pos hin]
          exact max_eq_right hvm
        refine ⟨tw, htw1, htw2, ?_⟩
        rw [hres]
        have hub := gmiSpec_ub j (P ++ [f]) hsort hnneg hzero tw
        rw [hres] at hub
        have hge : activeSumAt P tw j ≤ activeSumAt (P ++ [f]) tw j := by
          rw [activeSumAt_append]
          split_ifs
          · have := hnneg f hmemf j
            linarith
          · linarith
        exact le_antisymm hub (by rw [← htw3]; exact hge)
      · have hres : gmiSpec j [] (P ++ [f]) 0 =
            activeSumAt (P ++ [f]) f.signal.receptionStart j := by
          rw [hres', if_pos hin]
          exact max_eq_left (le_of_lt (not_le.mp hvm))
        by_cases hsf : start ≤ f.signal.receptionStart
        · exact ⟨f.signal.receptionStart, hsf, le_of_lt (hrs f hmemf), by rw [hres]⟩
        · refine ⟨start, le_refl _, hse, ?_⟩
          rw [hres]
          apply le_antisymm
          · have hub := gmiSpec_ub j (P ++ [f]) hsort hnneg hzero start
            rw [hres] at hub
            exact hub
          · unfold activeSumAt
            apply sum_filter_le_of_imp
            · intro g hg
              exact hnneg g hg j
            · intro g hg hp
              simp only [Bool.and_eq_true, decide_eq_true_eq] at hp ⊢
              refine ⟨?_, hre g hg⟩
              exact le_trans hp.1 (le_of_lt (not_le.mp hsf))
    · have hres : gmiSpec j [] (P ++ [f]) 0 = gmiSpec j [] P 0 := by
        rw [hres', if_neg hin]
      refine ⟨tw, htw1, htw2, ?_⟩
      rw [hres, activeSumAt_append]
      have hv0 : f.signal.values j = 0 := hzero f hmemf j (by omega)
      rw [hv0]
      split_ifs <;> rw [htw3] <;> ring

/-- Inside the window, the amended claim's sum coincides with the active sum
over the frames the loop processes. -/
theorem boundedSum_eq_activeSum (frames : List AirFrame) (refTreeId : Nat)
    (start endT t : ℚ) (j : Nat) (h1 : start ≤ t) (h2 : t ≤ endT) :
    boundedInterferenceSumAt frames refTreeId endT t j =
      activeSumAt (frames.filter (gmiKeep refTreeId start endT)) t j := by
  unfold boundedInterferenceSumAt activeSumAt
  rw [List.filter_filter]
  congr 1
  congr 1
  apply List.filter_congr
  intro f _
  by_cases c1 : f.treeId = refTreeId
  · simp [gmiKeep, c1]
  · by_cases c2 : f.signal.receptionStart ≤ t
    · by_cases c3 : t < f.signal.receptionEnd
      · by_cases c4 : f.signal.receptionStart < endT
        · simp [gmiKeep, c1, c2, c3, c4, not_le.mpr (lt_of_le_of_lt h1 c3),
            not_lt.mpr (le_trans c2 h2)]
        · simp [gmiKeep, c1, c2, c3, c4]
      · simp [c2, c3]
    · simp [c2]

/-- C1 as amended: for every window `start ≤ end` and every interferer
collection sorted ascending by reception start (with non-degenerate reception
intervals, spectra equal to the reference's, nonnegative power samples that
vanish outside each populated range, and nonnegative reception starts as the
`ASSERT` chain against the cursor initialised to 0 demands),
`getMaxInterference` returns, at each bin, the maximum over instants
`t ∈ [start, end]` of the summed power of the interferers active at `t` --
excluding frames with the reference's identity *and signals whose reception
starts at `end` or later* (the loop breaks before adding them; the original
claim, which includes them at `t = end`, is refuted by the counterexample). -/
theorem getMaxInterference_envelope (start endT : ℚ) (ref : AirFrame)
    (frames : List AirFrame)
    (hsorted : frames.Pairwise fun a b => a.signal.receptionStart ≤ b.signal.receptionStart)
    (hnd : ∀ f ∈ frames, f.signal.receptionStart < f.signal.receptionEnd)
    (hspec : ∀ f ∈ frames, f.signal.spectrum = ref.signal.spectrum)
    (hnneg : ∀ f ∈ frames, ∀ i, 0 ≤ f.signal.values i)
    (hzero : ∀ f ∈ frames, ∀ i, i < f.signal.dataStart ∨ f.signal.dataEnd ≤ i →
      f.signal.values i = 0)
    (htime : ∀ f ∈ frames, 0 ≤ f.signal.receptionStart)
    (hse : start ≤ endT) (j : Nat) :
    (∀ t, start ≤ t → t ≤ endT →
      boundedInterferenceSumAt frames ref.treeId endT t j ≤
        (getMaxInterference start endT ref frames).at j) ∧
      ∃ t, start ≤ t ∧ t ≤ endT ∧
        boundedInterferenceSumAt frames ref.treeId endT t j =
          (getMaxInterference start endT ref frames).at j := by
  have hPsort : (frames.filter (gmiKeep ref.treeId start endT)).Pairwise
      (fun a b : AirFrame => a.signal.receptionStart ≤ b.signal.receptionStart) :=
    List.Pairwise.filter _ hsorted
  have hPnneg : ∀ f ∈ frames.filter (gmiKeep ref.treeId start endT), ∀ i,
      0 ≤ f.signal.values i := fun f hf => hnneg f (List.mem_filter.mp hf).1
  have hPzero : ∀ f ∈ frames.filter (gmiKeep ref.treeId start endT), ∀ i,
      i < f.signal.dataStart ∨ f.signal.dataEnd ≤ i → f.signal.values i = 0 :=
    fun f hf => hzero f (List.mem_filter.mp hf).1
  have hPre : ∀ f ∈ frames.filter (gmiKeep ref.treeId start endT),
      start < f.signal.receptionEnd := fun f hf =>
    not_le.mp (not_or.mp ((gmiKeep_iff ref.treeId start endT f).mp
      (List.mem_filter.mp hf).2).2.1).1
  have hPrs : ∀ f ∈ frames.filter (gmiKeep ref.treeId start endT),
      f.signal.receptionStart < endT := fun f hf =>
    ((gmiKeep_iff ref.treeId start endT f).mp (List.mem_filter.mp hf).2).2.2
  have hval : (getMaxInterference start endT ref frames).at j =
      gmiSpec j [] (frames.filter (gmiKeep ref.treeId start endT)) 0 := by
    show (gmiLoop endT ref.treeId start frames
      ⟨Signal.ofSpectrum ref.signal.spectrum, Signal.ofSpectrum ref.signal.spectrum,
        [], 0⟩).values j = _
    rw [gmiLoop_eq_filtered endT ref.treeId start frames _ hsorted]
    exact gmiLoop_spec endT ref.treeId start j
      (frames.filter (gmiKeep ref.treeId start endT)) []
      (Signal.ofSpectrum ref.signal.spectrum) (Signal.ofSpectrum ref.signal.spectrum) [] 0
      (fun f hf => (gmiKeep_iff ref.treeId start endT f).mp (List.mem_filter.mp hf).2)
      (fun f hf => hnd f (List.mem_filter.mp hf).1)
      hPsort
      (fun g hg => absurd hg (List.not_mem_nil g))
      (fun f hf => htime f (List.mem_filter.mp hf).1)
      (by simp)
      List.Pairwise.nil
      (fun i => rfl)
  constructor
  · intro t ht1 ht2
    rw [hval, boundedSum_eq_activeSum frames ref.treeId start endT t j ht1 ht2]
    exact gmiSpec_ub j _ hPsort hPnneg hPzero t
  · obtain ⟨t, ht1, ht2, ht3⟩ := gmiSpec_attain start endT j
      (frames.filter (gmiKeep ref.treeId start endT)) hPsort hPnneg hPzero hPre hPrs hse
    exact ⟨t, ht1, ht2, by
      rw [hval, boundedSum_eq_activeSum frames ref.treeId start endT t j ht1 ht2, ht3]⟩

/-- Counterexample to C1 as stated: an interferer whose reception starts
exactly at `end` (here `[2, 3)` with `end = 2`) is active at the instant
`t = end` of the closed window, so the claimed maximum is its power 5; but
the loop pushes it, sets the cursor to `end` and `break`s before adding it,
returning 0 at every bin. All of the claim's premises (sorted input,
non-degenerate interval, equal spectra) hold at this input. -/
theorem getMaxInterference_cx :
    (∀ f ∈ [constFrame 1 1 5 2 3], f.signal.receptionStart < f.signal.receptionEnd) ∧
      (∀ f ∈ [constFrame 1 1 5 2 3],
        f.signal.spectrum = (constFrame 0 10 0 0 1).signal.spectrum) ∧
      (0 : ℚ) ≤ 2 ∧
      interferenceSumAt [constFrame 1 1 5 2 3] (constFrame 0 10 0 0 1).treeId 2 0 = 5 ∧
      (getMaxInterference 0 2 (constFrame 0 10 0 0 1) [constFrame 1 1 5 2 3]).at 0 = 0 := by
  with_unfolding_all decide

/-- Witness for the amended C1 at a concrete input: one interferer of power 5
on `[0, 10)`, window `[2, 3]`; the envelope at bin 0 is 5 and is both an
upper bound and attained. -/
theorem getMaxInterference_envelope_witness :
    boundedInterferenceSumAt [constFrame 1 1 5 0 10] (constFrame 0 10 0 0 1).treeId 3 2 0 ≤
        (getMaxInterference 2 3 (constFrame 0 10 0 0 1) [constFrame 1 1 5 0 10]).at 0 ∧
      (∃ t, (2 : ℚ) ≤ t ∧ t ≤ 3 ∧
        boundedInterferenceSumAt [constFrame 1 1 5 0 10] (constFrame 0 10 0 0 1).treeId 3 t 0 =
          (getMaxInterference 2 3 (constFrame 0 10 0 0 1) [constFrame 1 1 5 0 10]).at 0) ∧
      (getMaxInterference 2 3 (constFrame 0 10 0 0 1) [constFrame 1 1 5 0 10]).at 0 = 5 := by
  have H := getMaxInterference_envelope 2 3 (constFrame 0 10 0 0 1) [constFrame 1 1 5 0 10]
    (List.pairwise_singleton _ _)
    (by with_unfolding_all decide)
    (by with_unfolding_all decide)
    (by
      intro f hf i
      rcases List.mem_singleton.mp hf with rfl
      dsimp [constFrame, constSignal]
      split
      · norm_num
      · exact le_refl 0)
    (by
      intro f hf i hi
      rcases List.mem_singleton.mp hf with rfl
      dsimp [constFrame, constSignal] at hi ⊢
      rw [if_neg]
      omega)
    (by with_unfolding_all decide)
    (by with_unfolding_all decide) 0
  exact ⟨H.1 2 (by norm_num) (by norm_num), H.2, by with_unfolding_all decide⟩
